import Mathlib

/-!
Verification of the cachemar in-process memory driver (the bounded LRU cache
with tag-based invalidation and lazy TTL expiry).

The definitions below are a shallow embedding of the Go source
(`drivers/memory/memory.go`, package `memory`):

* `time.Time` is modelled as `Nat`; the zero `time.Time` ("never expires")
  is `Option.none`; `time.Duration` is modelled as `Int` (it can be zero or
  negative).
* the gob-encoded `Value []byte` is modelled by `GobValue`: a payload is
  either an encoded Go `int` or an encoded value of some other type
  (represented by a `String`).  Gob decoding into `*int` succeeds exactly on
  int payloads; decoding into the caller's output succeeds exactly when the
  payload kind matches the output kind.  Go `int` arithmetic (64-bit
  platform) wraps, modelled by `wrap64`.
* the intrusive doubly linked recency list with `head`/`tail` sentinels is
  modelled by the list `order` of the keys of the linked real entries, from
  `head.next` (most recently used) to `tail.prev` (least recently used).  An
  item has non-nil `prev`/`next` links exactly when its key occurs in
  `order`; the sentinels carry no key.
* `map[string]*Item` is modelled by an association list `items`; the store
  constructs at most one binding per key (`Set` inserts only on a missed
  lookup).  Go map iteration (`RemoveByTag`, `RemoveByTags`,
  `GetKeysByTag`) deletes only the binding currently visited, so iterating
  the association list models the range loop; the per-entry remove/keep
  decisions are independent of each other, so the unspecified Go map
  iteration order does not affect the resulting store contents.
* the `sync.Mutex` is dropped: every public operation is a single atomic
  state transformation.
-/

set_option maxHeartbeats 1000000

deriving instance DecidableEq for Except

namespace Cachemar

/-- Error taxonomy of the core (spec §7).  `notFound` is the class of the
sentinel `cachemar.ErrNotFound` returned by `Get` and of the
"key not found or expired" error returned by `Increment`/`Decrement`;
`notInteger` is the "value is not an integer" error; `decodeError` is a gob
decode failure of the caller-supplied output in `Get`. -/
inductive CErr where
  | notFound
  | notInteger
  | decodeError
deriving DecidableEq, Repr

/-- The kind of a gob payload / of the caller's output variable. -/
inductive GKind where
  | kInt
  | kStr
deriving DecidableEq, Repr

/-- A gob-encoded payload as stored in `Item.Value`: an encoded Go `int`
(64-bit) or an encoded value of any other type, represented by a string. -/
inductive GobValue where
  | intVal (n : Int)
  | strVal (s : String)
deriving DecidableEq, Repr

def GobValue.kind : GobValue → GKind
  | .intVal _ => .kInt
  | .strVal _ => .kStr

/-- Two's-complement wraparound of Go arithmetic on `int` (64-bit platform). -/
def wrap64 (n : Int) : Int := (n + 2 ^ 63) % 2 ^ 64 - 2 ^ 63

/-- One cached entry (`type Item struct`).  The `prev`/`next` links are
represented by membership of `key` in the store's `order` list. -/
structure Item where
  key : String
  value : GobValue
  tags : List String
  /-- `ExpiryTime`; `none` models the zero `time.Time` (never expires). -/
  expiry : Option Nat
deriving DecidableEq, Repr

/-- Association-list lookup, modelling `d.items[key]`. -/
def lookup (k : String) : List (String × Item) → Option Item
  | [] => none
  | p :: rest => if p.1 = k then some p.2 else lookup k rest

/-- `delete(d.items, key)`: removes the (unique) binding of `key`. -/
def eraseKey (k : String) (l : List (String × Item)) : List (String × Item) :=
  l.eraseP (fun p => p.1 == k)

/-- In-place update of the item bound to `key` (the Go code mutates the
`*Item` held by the map, leaving the binding in place). -/
def updateKey (k : String) (it : Item) (l : List (String × Item)) :
    List (String × Item) :=
  l.map (fun p => if p.1 = k then (k, it) else p)

/-- The store (`type memory struct`): the key-to-item map, the recency list
(most recently used first), `config.MaxSize` and the `size` counter. -/
structure Memory where
  items : List (String × Item)
  order : List String
  maxSize : Int
  size : Nat
deriving DecidableEq, Repr

namespace Memory

/-- The key set of the map, as a list. -/
def keys (s : Memory) : List String := s.items.map Prod.fst

/-- `NewWithConfig`: fresh store, empty map, empty list (the two sentinels
point at each other), `size = 0`. -/
def NewWithConfig (maxSize : Int) : Memory :=
  { items := [], order := [], maxSize := maxSize, size := 0 }

/-- `New()`: `NewWithConfig(Config{MaxSize: 0})`. -/
def New : Memory := NewWithConfig 0

/-- `isExpired`: a non-zero `ExpiryTime` strictly before `now`
(`!IsZero() && Before(now)`). -/
def isExpired (it : Item) (now : Nat) : Bool :=
  match it.expiry with
  | none => false
  | some e => e < now

/-- `uniqueTags`: deduplicate the tag list (the Go code collects the tags
into a set; only membership matters). -/
def uniqueTags (tags : List String) : List String := tags.eraseDups

/-- The expiry computed by `Set`: `time.Now().Add(ttl)` if `ttl > 0`, else
the zero time. -/
def mkExpiry (now : Nat) (ttl : Int) : Option Nat :=
  if 0 < ttl then some (now + ttl.toNat) else none

/-- `addToHead`: link an item right after the `head` sentinel. -/
def addToHead (s : Memory) (k : String) : Memory :=
  { s with order := k :: s.order }

/-- `removeItem`: unlink an item from the recency list. -/
def removeItem (s : Memory) (k : String) : Memory :=
  { s with order := s.order.erase k }

/-- `moveToHead`: `removeItem` then `addToHead`. -/
def moveToHead (s : Memory) (k : String) : Memory :=
  addToHead (removeItem s k) k

/-- `removeEntry`: if the item is linked (non-nil `prev`/`next`, i.e. its key
is in `order`) and is not a sentinel, unlink it, delete it from the map and
decrement `size` (guarded against going negative); clear its links. -/
def removeEntry (s : Memory) (k : String) : Memory :=
  if s.order.contains k then
    { s with
      items := eraseKey k s.items
      order := s.order.erase k
      size := if 0 < s.size then s.size - 1 else s.size }
  else s

/-- The `for d.size > d.config.MaxSize` loop of `evictLRU`.  The candidate is
`d.tail.prev`, the last real entry of the recency list; if it is the `head`
sentinel (empty list) the loop breaks.  Both the expired and the unexpired
branch of the loop body call `removeEntry` on the candidate, so the
`isExpired` test does not affect the result.  Each productive iteration
removes one entry and decrements `size`, so `size` iterations always suffice
to reach the loop's exit condition; `fuel` is initialised accordingly. -/
def evictLoop (now : Nat) : Nat → Memory → Memory
  | 0, s => s
  | fuel + 1, s =>
    if s.maxSize < (s.size : Int) then
      match s.order.getLast? with
      | none => s
      | some k => evictLoop now fuel (removeEntry s k)
    else s

/-- `evictLRU`: no-op when `MaxSize <= 0` (unbounded) or `size <= MaxSize`;
otherwise repeatedly remove the tail entry until `size <= MaxSize`. -/
def evictLRU (s : Memory) (now : Nat) : Memory :=
  if s.maxSize ≤ 0 ∨ (s.size : Int) ≤ s.maxSize then s
  else evictLoop now s.size s

/-- `Set`: deduplicate tags, gob-encode the value, compute the expiry; update
an existing item in place and move it to head, or insert a fresh item at
head, increment `size` and run eviction. -/
def Set (s : Memory) (now : Nat) (key : String) (value : GobValue)
    (ttl : Int) (tags : List String) : Memory :=
  let tags := uniqueTags tags
  let expiry := mkExpiry now ttl
  match lookup key s.items with
  | some _ =>
    let it : Item := ⟨key, value, tags, expiry⟩
    moveToHead { s with items := updateKey key it s.items } key
  | none =>
    let it : Item := ⟨key, value, tags, expiry⟩
    evictLRU
      { s with
        items := (key, it) :: s.items
        order := key :: s.order
        size := s.size + 1 }
      now

/-- `Get`: miss on an absent key; lazily remove and miss on an expired key;
otherwise move the entry to head and gob-decode the stored payload into the
caller's output (of kind `outKind`), which fails exactly on a kind
mismatch. -/
def Get (s : Memory) (now : Nat) (key : String) (outKind : GKind) :
    Except CErr GobValue × Memory :=
  match lookup key s.items with
  | none => (.error .notFound, s)
  | some it =>
    if isExpired it now then (.error .notFound, removeEntry s key)
    else
      let s1 := moveToHead s key
      if it.value.kind = outKind then (.ok it.value, s1)
      else (.error .decodeError, s1)

/-- `Remove`: remove the entry if present; a no-op (and no error) if
absent. -/
def Remove (s : Memory) (key : String) : Memory :=
  match lookup key s.items with
  | some _ => removeEntry s key
  | none => s

/-- `Exists`: `false` on an absent key; lazily remove and report `false` on
an expired key; otherwise `true`, leaving the store (in particular the
recency order) untouched.  Never an error. -/
def Exists (s : Memory) (now : Nat) (key : String) : Bool × Memory :=
  match lookup key s.items with
  | none => (false, s)
  | some it =>
    if isExpired it now then (false, removeEntry s key)
    else (true, s)

/-- `Increment`: fail with the not-found error on an absent or expired key;
otherwise move the entry to head, decode the payload as an int (failing with
the not-an-integer error on a kind mismatch), add one (Go `int` arithmetic)
and store the re-encoded value back in place. -/
def Increment (s : Memory) (now : Nat) (key : String) :
    Except CErr Unit × Memory :=
  match lookup key s.items with
  | none => (.error .notFound, s)
  | some it =>
    if isExpired it now then (.error .notFound, removeEntry s key)
    else
      let s1 := moveToHead s key
      match it.value with
      | .intVal n =>
        (.ok (),
          { s1 with
            items := updateKey key { it with value := .intVal (wrap64 (n + 1)) } s1.items })
      | .strVal _ => (.error .notInteger, s1)

/-- `Decrement`: as `Increment`, subtracting one. -/
def Decrement (s : Memory) (now : Nat) (key : String) :
    Except CErr Unit × Memory :=
  match lookup key s.items with
  | none => (.error .notFound, s)
  | some it =>
    if isExpired it now then (.error .notFound, removeEntry s key)
    else
      let s1 := moveToHead s key
      match it.value with
      | .intVal n =>
        (.ok (),
          { s1 with
            items := updateKey key { it with value := .intVal (wrap64 (n - 1)) } s1.items })
      | .strVal _ => (.error .notInteger, s1)

/-- The range loop of `GetKeysByTag`: lazily remove expired entries, collect
the keys whose tag set contains `tag`. -/
def getKeysByTagLoop (now : Nat) (tag : String) :
    List (String × Item) → Memory → List String → List String × Memory
  | [], s, acc => (acc, s)
  | (k, it) :: rest, s, acc =>
    if isExpired it now then getKeysByTagLoop now tag rest (removeEntry s k) acc
    else if it.tags.contains tag then getKeysByTagLoop now tag rest s (acc ++ [k])
    else getKeysByTagLoop now tag rest s acc

/-- `GetKeysByTag`. -/
def GetKeysByTag (s : Memory) (now : Nat) (tag : String) :
    List String × Memory :=
  getKeysByTagLoop now tag s.items s []

/-- The range loop of `RemoveByTag`: remove every entry that is expired or
whose tag set contains `tag`. -/
def removeByTagLoop (now : Nat) (tag : String) :
    List (String × Item) → Memory → Memory
  | [], s => s
  | (k, it) :: rest, s =>
    if isExpired it now then removeByTagLoop now tag rest (removeEntry s k)
    else if it.tags.contains tag then removeByTagLoop now tag rest (removeEntry s k)
    else removeByTagLoop now tag rest s

/-- `RemoveByTag`. -/
def RemoveByTag (s : Memory) (now : Nat) (tag : String) : Memory :=
  removeByTagLoop now tag s.items s

/-- The range loop of `RemoveByTags`: remove every entry that is expired or
whose tag set contains at least one of the given tags (the `removed` flag of
the Go code makes the nested loops remove on the first matching tag). -/
def removeByTagsLoop (now : Nat) (tags : List String) :
    List (String × Item) → Memory → Memory
  | [], s => s
  | (k, it) :: rest, s =>
    if isExpired it now then removeByTagsLoop now tags rest (removeEntry s k)
    else if tags.any (fun t => it.tags.contains t) then
      removeByTagsLoop now tags rest (removeEntry s k)
    else removeByTagsLoop now tags rest s

/-- `RemoveByTags`. -/
def RemoveByTags (s : Memory) (now : Nat) (tags : List String) : Memory :=
  removeByTagsLoop now tags s.items s

/-- `Flush`: clear the map, reset `size`, reset the list to empty. -/
def Flush (s : Memory) : Memory :=
  { s with items := [], order := [], size := 0 }

/-- One public operation of the driver, for stating properties of arbitrary
operation sequences. -/
inductive Op where
  | set (key : String) (value : GobValue) (ttl : Int) (tags : List String)
  | get (key : String) (outKind : GKind)
  | remove (key : String)
  | exist (key : String)
  | increment (key : String)
  | decrement (key : String)
  | getKeysByTag (tag : String)
  | removeByTag (tag : String)
  | removeByTags (tags : List String)
  | flush

/-- Apply one operation at time `now`, keeping only the store. -/
def applyOp (s : Memory) (now : Nat) : Op → Memory
  | .set k v ttl tags => s.Set now k v ttl tags
  | .get k kind => (s.Get now k kind).2
  | .remove k => s.Remove k
  | .exist k => (Memory.Exists s now k).2
  | .increment k => (s.Increment now k).2
  | .decrement k => (s.Decrement now k).2
  | .getKeysByTag t => (s.GetKeysByTag now t).2
  | .removeByTag t => s.RemoveByTag now t
  | .removeByTags ts => s.RemoveByTags now ts
  | .flush => s.Flush

/-- Run a sequence of timestamped operations. -/
def runOps (s : Memory) : List (Nat × Op) → Memory
  | [] => s
  | (now, op) :: rest => runOps (applyOp s now op) rest

/-! ### Definitions used by the verification -/

/-- The structural invariant of the store: the recency list and the map hold
exactly the same keys, without duplicates, and the `size` counter agrees with
the map count and with the list count. -/
structure Inv (s : Memory) : Prop where
  nodupOrder : s.order.Nodup
  nodupKeys : s.keys.Nodup
  memIff : ∀ k, k ∈ s.order ↔ k ∈ s.keys
  sizeOrder : s.size = s.order.length
  itemsOrder : s.items.length = s.order.length

/-- The capacity bound of a bounded store. -/
def CapOK (s : Memory) : Prop := 0 < s.maxSize → (s.size : Int) ≤ s.maxSize

/-- Everything that is preserved by every operation. -/
def Good (s : Memory) : Prop := Inv s ∧ CapOK s

/-- The common shape of the three map-range scan loops (`RemoveByTag`,
`RemoveByTags` and the store component of `GetKeysByTag`): remove the entries
whose item satisfies the test `f`.  Each loop is proved equal to it below. -/
def scanRemove (f : Item → Bool) : List (String × Item) → Memory → Memory
  | [], s => s
  | (k, it) :: rest, s =>
    if f it then scanRemove f rest (removeEntry s k) else scanRemove f rest s

end Memory

/-! ### Association-list facts -/

theorem lookup_eq_none {k : String} {l : List (String × Item)} :
    lookup k l = none ↔ k ∉ l.map Prod.fst := by
  induction l with
  | nil => simp [lookup]
  | cons p rest ih =>
    rw [lookup, List.map_cons]
    by_cases h : p.1 = k
    · subst h
      simp
    · have h' : ¬k = p.1 := fun e => h e.symm
      rw [if_neg h, ih]
      simp [h']

theorem mem_keys_of_lookup {k : String} {l : List (String × Item)} {it : Item}
    (h : lookup k l = some it) : k ∈ l.map Prod.fst := by
  by_contra hk
  rw [← lookup_eq_none] at hk
  rw [h] at hk
  cases hk

theorem lookup_mem {k : String} {l : List (String × Item)} {it : Item}
    (h : lookup k l = some it) : (k, it) ∈ l := by
  induction l with
  | nil => cases h
  | cons p rest ih =>
    by_cases hp : p.1 = k
    · rw [lookup, if_pos hp] at h
      cases h
      have he : (k, p.2) = p := by
        rw [← hp]
      rw [he]
      exact List.mem_cons_self _ _
    · rw [lookup, if_neg hp] at h
      exact List.mem_cons_of_mem _ (ih h)

theorem lookup_of_mem_nodup {k : String} {l : List (String × Item)} {it : Item}
    (hnd : (l.map Prod.fst).Nodup) (h : (k, it) ∈ l) : lookup k l = some it := by
  induction l with
  | nil => cases h
  | cons p rest ih =>
    rw [List.map_cons, List.nodup_cons] at hnd
    rcases List.mem_cons.1 h with h1 | h1
    · subst h1
      rw [lookup, if_pos rfl]
    · have hne : p.1 ≠ k := by
        intro he
        exact hnd.1 (he ▸ (List.mem_map.2 ⟨(k, it), h1, rfl⟩))
      rw [lookup, if_neg hne]
      exact ih hnd.2 h1

theorem keys_eraseKey (k : String) (l : List (String × Item)) :
    (eraseKey k l).map Prod.fst = (l.map Prod.fst).erase k := by
  rw [List.erase_eq_eraseP', List.eraseP_map]
  rfl

theorem length_eraseKey (k : String) (l : List (String × Item)) :
    (eraseKey k l).length = ((l.map Prod.fst).erase k).length := by
  rw [← keys_eraseKey, List.length_map]

theorem keys_updateKey (k : String) (it : Item) (l : List (String × Item)) :
    (updateKey k it l).map Prod.fst = l.map Prod.fst := by
  rw [updateKey, List.map_map]
  refine List.map_congr_left (fun p _ => ?_)
  by_cases h : p.1 = k
  · simp [h]
  · simp [h]

theorem length_updateKey (k : String) (it : Item) (l : List (String × Item)) :
    (updateKey k it l).length = l.length := by
  rw [updateKey, List.length_map]

theorem lookup_updateKey_self {k : String} {l : List (String × Item)} (it : Item)
    (h : k ∈ l.map Prod.fst) : lookup k (updateKey k it l) = some it := by
  induction l with
  | nil => cases h
  | cons p rest ih =>
    by_cases hp : p.1 = k
    · rw [updateKey, List.map_cons, if_pos hp, lookup, if_pos rfl]
    · rw [List.map_cons] at h
      rcases List.mem_cons.1 h with h1 | h1
      · exact absurd h1.symm hp
      · rw [updateKey, List.map_cons, if_neg hp] at *
        rw [lookup, if_neg hp]
        exact ih h1

theorem lookup_updateKey_ne {k k' : String} (it : Item) (l : List (String × Item))
    (hne : k' ≠ k) : lookup k' (updateKey k it l) = lookup k' l := by
  induction l with
  | nil => rfl
  | cons p rest ih =>
    by_cases hp : p.1 = k'
    · have : p.1 ≠ k := by rw [hp]; exact hne
      rw [updateKey, List.map_cons, if_neg this, lookup, if_pos hp, lookup, if_pos hp]
    · by_cases hq : p.1 = k
      · rw [updateKey, List.map_cons, if_pos hq, lookup,
          if_neg (fun he : k = k' => hne he.symm), lookup, if_neg hp]
        exact ih
      · rw [updateKey, List.map_cons, if_neg hq, lookup, if_neg hp, lookup, if_neg hp]
        exact ih

namespace Memory

/-! ### Store bookkeeping facts -/

theorem removeEntry_of_not_mem {s : Memory} {k : String} (h : k ∉ s.order) :
    removeEntry s k = s := by
  rw [removeEntry, if_neg]
  simp [h]

theorem removeEntry_of_mem {s : Memory} {k : String} (h : k ∈ s.order) :
    removeEntry s k =
      { s with
        items := eraseKey k s.items
        order := s.order.erase k
        size := if 0 < s.size then s.size - 1 else s.size } := by
  rw [removeEntry, if_pos]
  simp [h]

theorem order_removeEntry (s : Memory) (k : String) :
    (removeEntry s k).order = s.order.erase k := by
  by_cases h : k ∈ s.order
  · rw [removeEntry_of_mem h]
  · rw [removeEntry_of_not_mem h, List.erase_of_not_mem h]

theorem maxSize_removeEntry (s : Memory) (k : String) :
    (removeEntry s k).maxSize = s.maxSize := by
  by_cases h : k ∈ s.order
  · rw [removeEntry_of_mem h]
  · rw [removeEntry_of_not_mem h]

theorem size_removeEntry_le (s : Memory) (k : String) :
    (removeEntry s k).size ≤ s.size := by
  by_cases h : k ∈ s.order
  · rw [removeEntry_of_mem h]
    dsimp only
    split
    · omega
    · exact Nat.le_refl _
  · rw [removeEntry_of_not_mem h]

theorem size_removeEntry_of_mem {s : Memory} {k : String} (h0 : 0 < s.size)
    (h : k ∈ s.order) : (removeEntry s k).size = s.size - 1 := by
  rw [removeEntry_of_mem h]
  dsimp only
  rw [if_pos h0]

theorem order_moveToHead (s : Memory) (k : String) :
    (moveToHead s k).order = k :: s.order.erase k := rfl

theorem items_moveToHead (s : Memory) (k : String) :
    (moveToHead s k).items = s.items := rfl

theorem size_moveToHead (s : Memory) (k : String) :
    (moveToHead s k).size = s.size := rfl

theorem maxSize_moveToHead (s : Memory) (k : String) :
    (moveToHead s k).maxSize = s.maxSize := rfl

/-! ### Case equations for the public operations -/

theorem set_existing {s : Memory} {key : String} {it0 : Item}
    (now : Nat) (v : GobValue) (ttl : Int) (tags : List String)
    (hl : lookup key s.items = some it0) :
    Set s now key v ttl tags =
      moveToHead
        { s with items := updateKey key ⟨key, v, uniqueTags tags, mkExpiry now ttl⟩ s.items }
        key := by
  unfold Set
  rw [hl]

theorem set_new {s : Memory} {key : String}
    (now : Nat) (v : GobValue) (ttl : Int) (tags : List String)
    (hl : lookup key s.items = none) :
    Set s now key v ttl tags =
      evictLRU
        { s with
          items := (key, ⟨key, v, uniqueTags tags, mkExpiry now ttl⟩) :: s.items
          order := key :: s.order
          size := s.size + 1 }
        now := by
  unfold Set
  rw [hl]

theorem get_absent {s : Memory} {key : String} (now : Nat) (kind : GKind)
    (hl : lookup key s.items = none) :
    Get s now key kind = (.error .notFound, s) := by
  unfold Get
  rw [hl]

theorem get_expired {s : Memory} {key : String} {it : Item} (now : Nat) (kind : GKind)
    (hl : lookup key s.items = some it) (he : isExpired it now = true) :
    Get s now key kind = (.error .notFound, removeEntry s key) := by
  unfold Get
  rw [hl]
  simp [he]

theorem get_live_ok {s : Memory} {key : String} {it : Item} {kind : GKind} (now : Nat)
    (hl : lookup key s.items = some it) (he : isExpired it now = false)
    (hk : it.value.kind = kind) :
    Get s now key kind = (.ok it.value, moveToHead s key) := by
  unfold Get
  rw [hl]
  simp [he, hk]

theorem get_live_mismatch {s : Memory} {key : String} {it : Item} {kind : GKind} (now : Nat)
    (hl : lookup key s.items = some it) (he : isExpired it now = false)
    (hk : it.value.kind ≠ kind) :
    Get s now key kind = (.error .decodeError, moveToHead s key) := by
  unfold Get
  rw [hl]
  simp [he, hk]

theorem exists_absent {s : Memory} {key : String} (now : Nat)
    (hl : lookup key s.items = none) :
    Memory.Exists s now key = (false, s) := by
  unfold Memory.Exists
  rw [hl]

theorem exists_expired {s : Memory} {key : String} {it : Item} (now : Nat)
    (hl : lookup key s.items = some it) (he : isExpired it now = true) :
    Memory.Exists s now key = (false, removeEntry s key) := by
  unfold Memory.Exists
  rw [hl]
  simp [he]

theorem exists_live {s : Memory} {key : String} {it : Item} (now : Nat)
    (hl : lookup key s.items = some it) (he : isExpired it now = false) :
    Memory.Exists s now key = (true, s) := by
  unfold Memory.Exists
  rw [hl]
  simp [he]

theorem remove_absent {s : Memory} {key : String}
    (hl : lookup key s.items = none) : Remove s key = s := by
  unfold Remove
  rw [hl]

theorem remove_present {s : Memory} {key : String} {it : Item}
    (hl : lookup key s.items = some it) : Remove s key = removeEntry s key := by
  unfold Remove
  rw [hl]

theorem increment_absent {s : Memory} {key : String} (now : Nat)
    (hl : lookup key s.items = none) :
    Increment s now key = (.error .notFound, s) := by
  unfold Increment
  rw [hl]

theorem increment_expired {s : Memory} {key : String} {it : Item} (now : Nat)
    (hl : lookup key s.items = some it) (he : isExpired it now = true) :
    Increment s now key = (.error .notFound, removeEntry s key) := by
  unfold Increment
  rw [hl]
  simp [he]

theorem increment_live_int {s : Memory} {key : String} {it : Item} {n : Int} (now : Nat)
    (hl : lookup key s.items = some it) (he : isExpired it now = false)
    (hn : it.value = .intVal n) :
    Increment s now key =
      (.ok (),
        Memory.mk (updateKey key { it with value := .intVal (wrap64 (n + 1)) } s.items)
          (key :: s.order.erase key) s.maxSize s.size) := by
  unfold Increment
  rw [hl]
  simp [he, hn, items_moveToHead, moveToHead, addToHead, removeItem]

theorem increment_live_notInt {s : Memory} {key : String} {it : Item} {str : String}
    (now : Nat) (hl : lookup key s.items = some it) (he : isExpired it now = false)
    (hn : it.value = .strVal str) :
    Increment s now key = (.error .notInteger, moveToHead s key) := by
  unfold Increment
  rw [hl]
  simp [he, hn]

theorem decrement_absent {s : Memory} {key : String} (now : Nat)
    (hl : lookup key s.items = none) :
    Decrement s now key = (.error .notFound, s) := by
  unfold Decrement
  rw [hl]

theorem decrement_expired {s : Memory} {key : String} {it : Item} (now : Nat)
    (hl : lookup key s.items = some it) (he : isExpired it now = true) :
    Decrement s now key = (.error .notFound, removeEntry s key) := by
  unfold Decrement
  rw [hl]
  simp [he]

theorem decrement_live_int {s : Memory} {key : String} {it : Item} {n : Int} (now : Nat)
    (hl : lookup key s.items = some it) (he : isExpired it now = false)
    (hn : it.value = .intVal n) :
    Decrement s now key =
      (.ok (),
        Memory.mk (updateKey key { it with value := .intVal (wrap64 (n - 1)) } s.items)
          (key :: s.order.erase key) s.maxSize s.size) := by
  unfold Decrement
  rw [hl]
  simp [he, hn, items_moveToHead, moveToHead, addToHead, removeItem]

theorem decrement_live_notInt {s : Memory} {key : String} {it : Item} {str : String}
    (now : Nat) (hl : lookup key s.items = some it) (he : isExpired it now = false)
    (hn : it.value = .strVal str) :
    Decrement s now key = (.error .notInteger, moveToHead s key) := by
  unfold Decrement
  rw [hl]
  simp [he, hn]

theorem keys_removeEntry {s : Memory} {k : String} (h : Inv s) :
    (removeEntry s k).keys = s.keys.erase k := by
  by_cases hk : k ∈ s.order
  · rw [removeEntry_of_mem hk]
    exact keys_eraseKey k s.items
  · rw [removeEntry_of_not_mem hk, List.erase_of_not_mem]
    intro hmem
    exact hk ((h.memIff k).2 hmem)

theorem Inv.removeEntry {s : Memory} (h : Inv s) (k : String) :
    Inv (Memory.removeEntry s k) := by
  by_cases hk : k ∈ s.order
  · have hk' : k ∈ s.keys := (h.memIff k).1 hk
    have hsz : 0 < s.size := by
      rw [h.sizeOrder]
      exact List.length_pos_of_mem hk
    have hkeys : (Memory.removeEntry s k).keys = s.keys.erase k := keys_removeEntry h
    rw [removeEntry_of_mem hk] at hkeys ⊢
    refine ⟨List.Nodup.erase k h.nodupOrder, ?_, ?_, ?_, ?_⟩
    · rw [hkeys]
      exact List.Nodup.erase k h.nodupKeys
    · intro k'
      rw [hkeys, List.Nodup.mem_erase_iff h.nodupOrder,
        List.Nodup.mem_erase_iff h.nodupKeys, h.memIff k']
    · dsimp only
      rw [if_pos hsz, List.length_erase_of_mem hk, h.sizeOrder]
    · have h1 : (eraseKey k s.items).length = s.keys.length - 1 := by
        rw [length_eraseKey]
        show (s.keys.erase k).length = s.keys.length - 1
        rw [List.length_erase_of_mem hk']
      have h2 : s.keys.length = s.order.length := by
        rw [keys, List.length_map, h.itemsOrder]
      dsimp only
      rw [h1, h2, List.length_erase_of_mem hk]
  · rw [removeEntry_of_not_mem hk]
    exact h

theorem mem_keys_removeEntry {s : Memory} {k k' : String} (h : Inv s) :
    k' ∈ (removeEntry s k).keys ↔ k' ∈ s.keys ∧ k' ≠ k := by
  rw [keys_removeEntry h, List.Nodup.mem_erase_iff h.nodupKeys]
  exact and_comm

theorem mem_order_removeEntry {s : Memory} {k k' : String} (hnd : s.order.Nodup) :
    k' ∈ (removeEntry s k).order ↔ k' ∈ s.order ∧ k' ≠ k := by
  rw [order_removeEntry, List.Nodup.mem_erase_iff hnd]
  exact and_comm

theorem keys_moveToHead (s : Memory) (k : String) :
    (moveToHead s k).keys = s.keys := rfl

theorem Inv.moveToHead {s : Memory} {k : String} (h : Inv s) (hk : k ∈ s.order) :
    Inv (Memory.moveToHead s k) := by
  have hlen : 0 < s.order.length := List.length_pos_of_mem hk
  refine ⟨?_, h.nodupKeys, ?_, ?_, ?_⟩
  · rw [order_moveToHead, List.nodup_cons]
    exact ⟨List.Nodup.not_mem_erase h.nodupOrder, List.Nodup.erase k h.nodupOrder⟩
  · intro k'
    rw [order_moveToHead, keys_moveToHead, List.mem_cons,
      List.Nodup.mem_erase_iff h.nodupOrder, ← h.memIff k']
    constructor
    · rintro (he | ⟨_, hm⟩)
      · rw [he]
        exact hk
      · exact hm
    · intro hm
      by_cases he : k' = k
      · exact Or.inl he
      · exact Or.inr ⟨he, hm⟩
  · rw [size_moveToHead, order_moveToHead, List.length_cons,
      List.length_erase_of_mem hk, h.sizeOrder]
    omega
  · rw [items_moveToHead, order_moveToHead, List.length_cons,
      List.length_erase_of_mem hk, h.itemsOrder]
    omega

theorem Inv.updateItems {s : Memory} (h : Inv s) (k : String) (it : Item) :
    Inv { s with items := updateKey k it s.items } := by
  have hkeys : ({ s with items := updateKey k it s.items } : Memory).keys = s.keys :=
    keys_updateKey k it s.items
  refine ⟨h.nodupOrder, ?_, ?_, h.sizeOrder, ?_⟩
  · rw [hkeys]
    exact h.nodupKeys
  · intro k'
    rw [hkeys]
    exact h.memIff k'
  · dsimp only
    rw [length_updateKey]
    exact h.itemsOrder

/-! ### Eviction facts -/

theorem maxSize_evictLoop (now : Nat) :
    ∀ (fuel : Nat) (s : Memory), (evictLoop now fuel s).maxSize = s.maxSize := by
  intro fuel
  induction fuel with
  | zero => intro s; rfl
  | succ n ih =>
    intro s
    by_cases hlt : s.maxSize < (s.size : Int)
    · rw [evictLoop, if_pos hlt]
      cases hgl : s.order.getLast? with
      | none => rfl
      | some k => rw [ih, maxSize_removeEntry]
    · rw [evictLoop, if_neg hlt]

theorem Inv.evictLoop {now : Nat} :
    ∀ {fuel : Nat} {s : Memory}, Inv s → Inv (Memory.evictLoop now fuel s) := by
  intro fuel
  induction fuel with
  | zero => intro s h; exact h
  | succ n ih =>
    intro s h
    by_cases hlt : s.maxSize < (s.size : Int)
    · rw [Memory.evictLoop, if_pos hlt]
      cases hgl : s.order.getLast? with
      | none => exact h
      | some k => exact ih (h.removeEntry k)
    · rw [Memory.evictLoop, if_neg hlt]
      exact h

theorem size_evictLoop_le_max {now : Nat} :
    ∀ (fuel : Nat) (s : Memory), Inv s → 0 < s.maxSize → s.size ≤ fuel →
      ((evictLoop now fuel s).size : Int) ≤ s.maxSize := by
  intro fuel
  induction fuel with
  | zero =>
    intro s h hcap hf
    have h0 : s.size = 0 := Nat.le_zero.1 hf
    show ((s.size : Nat) : Int) ≤ s.maxSize
    rw [h0]
    omega
  | succ n ih =>
    intro s h hcap hf
    by_cases hlt : s.maxSize < (s.size : Int)
    · rw [evictLoop, if_pos hlt]
      have hpos : 0 < s.size := by omega
      have hne : s.order ≠ [] := by
        intro he
        rw [h.sizeOrder, he] at hpos
        simp at hpos
      obtain ⟨k, hk⟩ : ∃ k, s.order.getLast? = some k := by
        cases hgl : s.order.getLast? with
        | none => exact absurd (List.getLast?_eq_none_iff.1 hgl) hne
        | some k => exact ⟨k, rfl⟩
      rw [hk]
      have hkmem : k ∈ s.order := List.mem_of_getLast?_eq_some hk
      have hsz : (removeEntry s k).size = s.size - 1 := size_removeEntry_of_mem hpos hkmem
      have hres := ih (removeEntry s k) (h.removeEntry k)
        (by rw [maxSize_removeEntry]; exact hcap) (by omega)
      rw [maxSize_removeEntry] at hres
      exact hres
    · rw [evictLoop, if_neg hlt]
      omega

theorem evictLoop_of_le {now : Nat} {s : Memory} (h : (s.size : Int) ≤ s.maxSize) :
    ∀ fuel, evictLoop now fuel s = s := by
  intro fuel
  cases fuel with
  | zero => rfl
  | succ n => rw [evictLoop, if_neg (not_lt.2 h)]

theorem Inv.evictLRU {s : Memory} {now : Nat} (h : Inv s) :
    Inv (Memory.evictLRU s now) := by
  unfold Memory.evictLRU
  split
  · exact h
  · exact h.evictLoop

theorem maxSize_evictLRU (s : Memory) (now : Nat) :
    (evictLRU s now).maxSize = s.maxSize := by
  unfold evictLRU
  split
  · rfl
  · exact maxSize_evictLoop now s.size s

theorem size_evictLRU_le_max {s : Memory} {now : Nat} (h : Inv s) (hcap : 0 < s.maxSize) :
    ((evictLRU s now).size : Int) ≤ s.maxSize := by
  unfold evictLRU
  split
  · rename_i hc
    rcases hc with hc | hc
    · omega
    · exact hc
  · exact size_evictLoop_le_max s.size s h hcap (Nat.le_refl _)

theorem evictLRU_of_le {s : Memory} {now : Nat} (h : (s.size : Int) ≤ s.maxSize) :
    evictLRU s now = s := by
  unfold evictLRU
  rw [if_pos (Or.inr h)]

/-! ### Preservation of the invariant by the public operations -/

theorem Inv.consNew {s : Memory} {key : String} (h : Inv s)
    (hl : lookup key s.items = none) (it : Item) :
    Inv { s with
      items := (key, it) :: s.items
      order := key :: s.order
      size := s.size + 1 } := by
  have hknotk : key ∉ s.keys := lookup_eq_none.1 hl
  have hkno : key ∉ s.order := fun hm => hknotk ((h.memIff key).1 hm)
  refine ⟨List.nodup_cons.2 ⟨hkno, h.nodupOrder⟩, ?_, ?_, ?_, ?_⟩
  · show (((key, it) :: s.items).map Prod.fst).Nodup
    rw [List.map_cons]
    exact List.nodup_cons.2 ⟨hknotk, h.nodupKeys⟩
  · intro k'
    show k' ∈ key :: s.order ↔ k' ∈ ((key, it) :: s.items).map Prod.fst
    rw [List.map_cons, List.mem_cons, List.mem_cons, h.memIff k']
    exact Iff.rfl
  · show s.size + 1 = (key :: s.order).length
    rw [List.length_cons, h.sizeOrder]
  · show ((key, it) :: s.items).length = (key :: s.order).length
    rw [List.length_cons, List.length_cons, h.itemsOrder]

theorem Inv.set {s : Memory} (h : Inv s) (now : Nat) (key : String) (v : GobValue)
    (ttl : Int) (tags : List String) : Inv (Set s now key v ttl tags) := by
  cases hl : lookup key s.items with
  | some it0 =>
    rw [set_existing now v ttl tags hl]
    exact Inv.moveToHead (h.updateItems key _) ((h.memIff key).2 (mem_keys_of_lookup hl))
  | none =>
    rw [set_new now v ttl tags hl]
    exact Inv.evictLRU (h.consNew hl _)

theorem good_set {s : Memory} (h : Good s) (now : Nat) (key : String) (v : GobValue)
    (ttl : Int) (tags : List String) : Good (Set s now key v ttl tags) := by
  refine ⟨h.1.set now key v ttl tags, ?_⟩
  cases hl : lookup key s.items with
  | some it0 =>
    rw [set_existing now v ttl tags hl]
    intro hcap
    exact h.2 hcap
  | none =>
    rw [set_new now v ttl tags hl]
    intro hcap
    rw [maxSize_evictLRU] at hcap ⊢
    exact size_evictLRU_le_max (h.1.consNew hl _) hcap

theorem Good.mono {s t : Memory} (h : Good s) (hi : Inv t) (hsz : t.size ≤ s.size)
    (hm : t.maxSize = s.maxSize) : Good t := by
  refine ⟨hi, fun hcap => ?_⟩
  have hs := h.2 (hm ▸ hcap)
  omega

theorem good_get {s : Memory} (h : Good s) (now : Nat) (key : String) (kind : GKind) :
    Good (Get s now key kind).2 := by
  cases hl : lookup key s.items with
  | none =>
    rw [get_absent now kind hl]
    exact h
  | some it =>
    cases he : isExpired it now with
    | true =>
      rw [get_expired now kind hl he]
      exact Good.mono h (h.1.removeEntry key) (size_removeEntry_le s key)
        (maxSize_removeEntry s key)
    | false =>
      have hmem : key ∈ s.order := (h.1.memIff key).2 (mem_keys_of_lookup hl)
      by_cases hk : it.value.kind = kind
      · rw [get_live_ok now hl he hk]
        exact ⟨h.1.moveToHead hmem, fun hcap => h.2 hcap⟩
      · rw [get_live_mismatch now hl he hk]
        exact ⟨h.1.moveToHead hmem, fun hcap => h.2 hcap⟩

theorem good_exists {s : Memory} (h : Good s) (now : Nat) (key : String) :
    Good (Memory.Exists s now key).2 := by
  cases hl : lookup key s.items with
  | none =>
    rw [exists_absent now hl]
    exact h
  | some it =>
    cases he : isExpired it now with
    | true =>
      rw [exists_expired now hl he]
      exact Good.mono h (h.1.removeEntry key) (size_removeEntry_le s key)
        (maxSize_removeEntry s key)
    | false =>
      rw [exists_live now hl he]
      exact h

theorem good_remove {s : Memory} (h : Good s) (key : String) :
    Good (Remove s key) := by
  cases hl : lookup key s.items with
  | none =>
    rw [remove_absent hl]
    exact h
  | some it =>
    rw [remove_present hl]
    exact Good.mono h (h.1.removeEntry key) (size_removeEntry_le s key)
      (maxSize_removeEntry s key)

theorem good_increment {s : Memory} (h : Good s) (now : Nat) (key : String) :
    Good (Increment s now key).2 := by
  cases hl : lookup key s.items with
  | none =>
    rw [increment_absent now hl]
    exact h
  | some it =>
    cases he : isExpired it now with
    | true =>
      rw [increment_expired now hl he]
      exact Good.mono h (h.1.removeEntry key) (size_removeEntry_le s key)
        (maxSize_removeEntry s key)
    | false =>
      have hmem : key ∈ s.order := (h.1.memIff key).2 (mem_keys_of_lookup hl)
      cases hv : it.value with
      | intVal n =>
        rw [increment_live_int now hl he hv]
        exact ⟨(Inv.moveToHead h.1 hmem).updateItems key _, fun hcap => h.2 hcap⟩
      | strVal str =>
        rw [increment_live_notInt now hl he hv]
        exact ⟨h.1.moveToHead hmem, fun hcap => h.2 hcap⟩

theorem good_decrement {s : Memory} (h : Good s) (now : Nat) (key : String) :
    Good (Decrement s now key).2 := by
  cases hl : lookup key s.items with
  | none =>
    rw [decrement_absent now hl]
    exact h
  | some it =>
    cases he : isExpired it now with
    | true =>
      rw [decrement_expired now hl he]
      exact Good.mono h (h.1.removeEntry key) (size_removeEntry_le s key)
        (maxSize_removeEntry s key)
    | false =>
      have hmem : key ∈ s.order := (h.1.memIff key).2 (mem_keys_of_lookup hl)
      cases hv : it.value with
      | intVal n =>
        rw [decrement_live_int now hl he hv]
        exact ⟨(Inv.moveToHead h.1 hmem).updateItems key _, fun hcap => h.2 hcap⟩
      | strVal str =>
        rw [decrement_live_notInt now hl he hv]
        exact ⟨h.1.moveToHead hmem, fun hcap => h.2 hcap⟩

/-! ### The tag-scan loops, via a common removal scan

The three range loops (`RemoveByTag`, `RemoveByTags`, and the store component
of `GetKeysByTag`) all have the shape "remove the entries whose item
satisfies a test"; `scanRemove` is that common shape, and each loop is
proved equal to it. -/

theorem removeByTagLoop_eq_scanRemove (now : Nat) (tag : String) :
    ∀ (l : List (String × Item)) (s : Memory),
      removeByTagLoop now tag l s =
        scanRemove (fun it => isExpired it now || it.tags.contains tag) l s := by
  intro l
  induction l with
  | nil => intro s; rfl
  | cons p rest ih =>
    intro s
    obtain ⟨k, it⟩ := p
    cases h1 : isExpired it now with
    | true => rw [removeByTagLoop, scanRemove]; simp [h1, ih]
    | false =>
      cases h2 : it.tags.contains tag with
      | true => rw [removeByTagLoop, scanRemove]; simp [h1, h2, ih]
      | false => rw [removeByTagLoop, scanRemove]; simp [h1, h2, ih]

theorem removeByTagsLoop_eq_scanRemove (now : Nat) (tags : List String) :
    ∀ (l : List (String × Item)) (s : Memory),
      removeByTagsLoop now tags l s =
        scanRemove
          (fun it => isExpired it now || tags.any (fun t => it.tags.contains t)) l s := by
  intro l
  induction l with
  | nil => intro s; rfl
  | cons p rest ih =>
    intro s
    obtain ⟨k, it⟩ := p
    cases h1 : isExpired it now with
    | true => rw [removeByTagsLoop, scanRemove]; simp [h1, ih]
    | false =>
      cases h2 : tags.any (fun t => it.tags.contains t) with
      | true => rw [removeByTagsLoop, scanRemove]; simp [h1, h2, ih]
      | false => rw [removeByTagsLoop, scanRemove]; simp [h1, h2, ih]

theorem snd_getKeysByTagLoop (now : Nat) (tag : String) :
    ∀ (l : List (String × Item)) (s : Memory) (acc : List String),
      (getKeysByTagLoop now tag l s acc).2 =
        scanRemove (fun it => isExpired it now) l s := by
  intro l
  induction l with
  | nil => intro s acc; rfl
  | cons p rest ih =>
    intro s acc
    obtain ⟨k, it⟩ := p
    cases h1 : isExpired it now with
    | true => rw [getKeysByTagLoop, scanRemove]; simp [h1, ih]
    | false =>
      cases h2 : it.tags.contains tag with
      | true =>
        have h2' : tag ∈ it.tags := by simpa using h2
        rw [getKeysByTagLoop, scanRemove]
        simp [h1, h2', ih]
      | false =>
        have h2' : tag ∉ it.tags := by simpa using h2
        rw [getKeysByTagLoop, scanRemove]
        simp [h1, h2', ih]

theorem Inv.scanRemove {f : Item → Bool} :
    ∀ (l : List (String × Item)) {s : Memory}, Inv s → Inv (Memory.scanRemove f l s) := by
  intro l
  induction l with
  | nil => intro s h; exact h
  | cons p rest ih =>
    intro s h
    obtain ⟨k, it⟩ := p
    cases hf : f it with
    | true =>
      rw [Memory.scanRemove]
      simp only [hf, if_true]
      exact ih (h.removeEntry k)
    | false =>
      rw [Memory.scanRemove]
      simp only [hf, Bool.false_eq_true, if_false]
      exact ih h

theorem maxSize_scanRemove (f : Item → Bool) :
    ∀ (l : List (String × Item)) (s : Memory),
      (scanRemove f l s).maxSize = s.maxSize := by
  intro l
  induction l with
  | nil => intro s; rfl
  | cons p rest ih =>
    intro s
    obtain ⟨k, it⟩ := p
    cases hf : f it with
    | true =>
      rw [scanRemove]
      simp only [hf, if_true]
      rw [ih, maxSize_removeEntry]
    | false =>
      rw [scanRemove]
      simp only [hf, Bool.false_eq_true, if_false]
      exact ih s

theorem size_scanRemove_le (f : Item → Bool) :
    ∀ (l : List (String × Item)) (s : Memory),
      (scanRemove f l s).size ≤ s.size := by
  intro l
  induction l with
  | nil => intro s; exact Nat.le_refl _
  | cons p rest ih =>
    intro s
    obtain ⟨k, it⟩ := p
    cases hf : f it with
    | true =>
      rw [scanRemove]
      simp only [hf, if_true]
      exact le_trans (ih _) (size_removeEntry_le s k)
    | false =>
      rw [scanRemove]
      simp only [hf, Bool.false_eq_true, if_false]
      exact ih s

theorem good_removeByTag {s : Memory} (h : Good s) (now : Nat) (tag : String) :
    Good (RemoveByTag s now tag) := by
  rw [RemoveByTag, removeByTagLoop_eq_scanRemove]
  exact Good.mono h (Inv.scanRemove _ h.1) (size_scanRemove_le _ _ _)
    (maxSize_scanRemove _ _ _)

theorem good_removeByTags {s : Memory} (h : Good s) (now : Nat) (tags : List String) :
    Good (RemoveByTags s now tags) := by
  rw [RemoveByTags, removeByTagsLoop_eq_scanRemove]
  exact Good.mono h (Inv.scanRemove _ h.1) (size_scanRemove_le _ _ _)
    (maxSize_scanRemove _ _ _)

theorem good_getKeysByTag {s : Memory} (h : Good s) (now : Nat) (tag : String) :
    Good (GetKeysByTag s now tag).2 := by
  rw [GetKeysByTag, snd_getKeysByTagLoop]
  exact Good.mono h (Inv.scanRemove _ h.1) (size_scanRemove_le _ _ _)
    (maxSize_scanRemove _ _ _)

theorem good_flush {s : Memory} (h : Good s) : Good (Flush s) := by
  refine ⟨⟨List.nodup_nil, List.nodup_nil, fun k => Iff.rfl, rfl, rfl⟩, fun hcap => ?_⟩
  show ((0 : Nat) : Int) ≤ (Flush s).maxSize
  omega

theorem Good.applyOp {s : Memory} (h : Good s) (now : Nat) (op : Op) :
    Good (Memory.applyOp s now op) := by
  cases op with
  | set k v ttl tags => exact good_set h now k v ttl tags
  | get k kind => exact good_get h now k kind
  | remove k => exact good_remove h k
  | exist k => exact good_exists h now k
  | increment k => exact good_increment h now k
  | decrement k => exact good_decrement h now k
  | getKeysByTag t => exact good_getKeysByTag h now t
  | removeByTag t => exact good_removeByTag h now t
  | removeByTags ts => exact good_removeByTags h now ts
  | flush => exact good_flush h

theorem good_runOps :
    ∀ (ops : List (Nat × Op)) (s : Memory), Good s → Good (runOps s ops) := by
  intro ops
  induction ops with
  | nil => intro s h; exact h
  | cons p rest ih =>
    intro s h
    obtain ⟨now, op⟩ := p
    exact ih _ (h.applyOp now op)

theorem good_NewWithConfig (cap : Int) : Good (NewWithConfig cap) := by
  refine ⟨⟨List.nodup_nil, List.nodup_nil, fun k => Iff.rfl, rfl, rfl⟩, fun hcap => ?_⟩
  show ((0 : Nat) : Int) ≤ (NewWithConfig cap).maxSize
  omega

/-! ### `MaxSize` is fixed at construction and never mutated -/

theorem maxSize_set (s : Memory) (now : Nat) (key : String) (v : GobValue)
    (ttl : Int) (tags : List String) :
    (Set s now key v ttl tags).maxSize = s.maxSize := by
  cases hl : lookup key s.items with
  | some it0 => rw [set_existing now v ttl tags hl]; rfl
  | none => rw [set_new now v ttl tags hl, maxSize_evictLRU]

theorem maxSize_get (s : Memory) (now : Nat) (key : String) (kind : GKind) :
    ((Get s now key kind).2).maxSize = s.maxSize := by
  cases hl : lookup key s.items with
  | none => rw [get_absent now kind hl]
  | some it =>
    cases he : isExpired it now with
    | true => rw [get_expired now kind hl he]; exact maxSize_removeEntry s key
    | false =>
      by_cases hk : it.value.kind = kind
      · rw [get_live_ok now hl he hk]
        rfl
      · rw [get_live_mismatch now hl he hk]
        rfl

theorem maxSize_exists (s : Memory) (now : Nat) (key : String) :
    ((Memory.Exists s now key).2).maxSize = s.maxSize := by
  cases hl : lookup key s.items with
  | none => rw [exists_absent now hl]
  | some it =>
    cases he : isExpired it now with
    | true => rw [exists_expired now hl he]; exact maxSize_removeEntry s key
    | false => rw [exists_live now hl he]

theorem maxSize_remove (s : Memory) (key : String) :
    (Remove s key).maxSize = s.maxSize := by
  cases hl : lookup key s.items with
  | none => rw [remove_absent hl]
  | some it => rw [remove_present hl]; exact maxSize_removeEntry s key

theorem maxSize_increment (s : Memory) (now : Nat) (key : String) :
    ((Increment s now key).2).maxSize = s.maxSize := by
  cases hl : lookup key s.items with
  | none => rw [increment_absent now hl]
  | some it =>
    cases he : isExpired it now with
    | true => rw [increment_expired now hl he]; exact maxSize_removeEntry s key
    | false =>
      cases hv : it.value with
      | intVal n => rw [increment_live_int now hl he hv]
      | strVal str => rw [increment_live_notInt now hl he hv]; rfl

theorem maxSize_decrement (s : Memory) (now : Nat) (key : String) :
    ((Decrement s now key).2).maxSize = s.maxSize := by
  cases hl : lookup key s.items with
  | none => rw [decrement_absent now hl]
  | some it =>
    cases he : isExpired it now with
    | true => rw [decrement_expired now hl he]; exact maxSize_removeEntry s key
    | false =>
      cases hv : it.value with
      | intVal n => rw [decrement_live_int now hl he hv]
      | strVal str => rw [decrement_live_notInt now hl he hv]; rfl

theorem maxSize_applyOp (s : Memory) (now : Nat) (op : Op) :
    (applyOp s now op).maxSize = s.maxSize := by
  cases op with
  | set k v ttl tags => exact maxSize_set s now k v ttl tags
  | get k kind => exact maxSize_get s now k kind
  | remove k => exact maxSize_remove s k
  | exist k => exact maxSize_exists s now k
  | increment k => exact maxSize_increment s now k
  | decrement k => exact maxSize_decrement s now k
  | getKeysByTag t =>
    show ((GetKeysByTag s now t).2).maxSize = s.maxSize
    rw [GetKeysByTag, snd_getKeysByTagLoop, maxSize_scanRemove]
  | removeByTag t =>
    show (RemoveByTag s now t).maxSize = s.maxSize
    rw [RemoveByTag, removeByTagLoop_eq_scanRemove, maxSize_scanRemove]
  | removeByTags ts =>
    show (RemoveByTags s now ts).maxSize = s.maxSize
    rw [RemoveByTags, removeByTagsLoop_eq_scanRemove, maxSize_scanRemove]
  | flush => rfl

theorem maxSize_runOps :
    ∀ (ops : List (Nat × Op)) (s : Memory), (runOps s ops).maxSize = s.maxSize := by
  intro ops
  induction ops with
  | nil => intro s; rfl
  | cons p rest ih =>
    intro s
    obtain ⟨now, op⟩ := p
    rw [runOps, ih, maxSize_applyOp]

/-! ### Exact shape of `Set` on a fresh key -/

theorem lookup_cons_self (key : String) (it : Item) (l : List (String × Item)) :
    lookup key ((key, it) :: l) = some it := by
  rw [lookup, if_pos rfl]

theorem eraseKey_cons_ne {key k : String} (hne : key ≠ k) (it : Item)
    (l : List (String × Item)) :
    eraseKey k ((key, it) :: l) = (key, it) :: eraseKey k l := by
  simp [eraseKey, List.eraseP_cons, hne]

theorem getLast?_cons_of_ne_nil {a : String} {l : List String} (h : l ≠ []) :
    (a :: l).getLast? = l.getLast? := by
  have hl : a :: l = [a] ++ l := rfl
  cases hgl : l.getLast? with
  | none => exact absurd (List.getLast?_eq_none_iff.1 hgl) h
  | some k => rw [hl, List.getLast?_append, hgl]; rfl

theorem evictLRU_of_nonpos {s : Memory} {now : Nat} (h : s.maxSize ≤ 0) :
    evictLRU s now = s := by
  unfold evictLRU
  rw [if_pos (Or.inl h)]

/-- A `Set` of a fresh key with room to spare (or on an unbounded store)
inserts at head and evicts nothing. -/
theorem set_new_no_evict {s : Memory} {key : String} (now : Nat) (v : GobValue)
    (ttl : Int) (tags : List String) (hl : lookup key s.items = none)
    (hroom : s.maxSize ≤ 0 ∨ (s.size : Int) + 1 ≤ s.maxSize) :
    Set s now key v ttl tags =
      { items := (key, ⟨key, v, uniqueTags tags, mkExpiry now ttl⟩) :: s.items
        order := key :: s.order
        maxSize := s.maxSize
        size := s.size + 1 } := by
  rw [set_new now v ttl tags hl]
  cases hroom with
  | inl hnp => exact evictLRU_of_nonpos hnp
  | inr hle =>
    apply evictLRU_of_le
    show ((s.size + 1 : Nat) : Int) ≤ s.maxSize
    push_cast
    omega

/-- A `Set` of a fresh key on a full bounded store (`size = MaxSize > 0`)
inserts at head and evicts exactly the entry at the tail of the recency
list. -/
theorem set_new_full_step {s : Memory} {key : String} (h : Good s) (now : Nat)
    (v : GobValue) (ttl : Int) (tags : List String)
    (hl : lookup key s.items = none) (hcap : 0 < s.maxSize)
    (hfull : (s.size : Int) = s.maxSize) :
    ∃ tailKey, s.order.getLast? = some tailKey ∧ tailKey ≠ key ∧
      Set s now key v ttl tags =
        { items :=
            (key, ⟨key, v, uniqueTags tags, mkExpiry now ttl⟩) :: eraseKey tailKey s.items
          order := key :: s.order.erase tailKey
          maxSize := s.maxSize
          size := s.size } := by
  obtain ⟨hi, hc⟩ := h
  have hsz1 : 0 < s.size := by omega
  have hone : s.order ≠ [] := by
    intro he
    rw [hi.sizeOrder, he] at hsz1
    simp at hsz1
  obtain ⟨tailKey, htk⟩ : ∃ k, s.order.getLast? = some k := by
    cases hgl : s.order.getLast? with
    | none => exact absurd (List.getLast?_eq_none_iff.1 hgl) hone
    | some k => exact ⟨k, rfl⟩
  have htkmem : tailKey ∈ s.order := List.mem_of_getLast?_eq_some htk
  have hknot : key ∉ s.order := fun hm => (lookup_eq_none.1 hl) ((hi.memIff key).1 hm)
  have hne : tailKey ≠ key := fun he => hknot (he ▸ htkmem)
  refine ⟨tailKey, htk, hne, ?_⟩
  rw [set_new now v ttl tags hl]
  unfold evictLRU
  rw [if_neg (by push_cast; omega)]
  show evictLoop now (s.size + 1)
      { items := (key, ⟨key, v, uniqueTags tags, mkExpiry now ttl⟩) :: s.items
        order := key :: s.order
        maxSize := s.maxSize
        size := s.size + 1 } = _
  rw [evictLoop]
  rw [if_pos (by push_cast; omega)]
  have hgl1 :
      ({ items := (key, ⟨key, v, uniqueTags tags, mkExpiry now ttl⟩) :: s.items
         order := key :: s.order
         maxSize := s.maxSize
         size := s.size + 1 } : Memory).order.getLast? = some tailKey := by
    show (key :: s.order).getLast? = some tailKey
    rw [getLast?_cons_of_ne_nil hone, htk]
  rw [hgl1]
  have hre :
      removeEntry
        { items := (key, ⟨key, v, uniqueTags tags, mkExpiry now ttl⟩) :: s.items
          order := key :: s.order
          maxSize := s.maxSize
          size := s.size + 1 } tailKey =
      { items :=
          (key, ⟨key, v, uniqueTags tags, mkExpiry now ttl⟩) :: eraseKey tailKey s.items
        order := key :: s.order.erase tailKey
        maxSize := s.maxSize
        size := s.size } := by
    rw [removeEntry_of_mem (List.mem_cons_of_mem key htkmem)]
    have h1 : eraseKey tailKey ((key, ⟨key, v, uniqueTags tags, mkExpiry now ttl⟩) :: s.items)
        = (key, ⟨key, v, uniqueTags tags, mkExpiry now ttl⟩) :: eraseKey tailKey s.items :=
      eraseKey_cons_ne (Ne.symm hne) _ s.items
    have h2 : (key :: s.order).erase tailKey = key :: s.order.erase tailKey :=
      List.erase_cons_tail (by simpa using Ne.symm hne)
    dsimp only
    rw [h1, h2, if_pos (Nat.succ_pos s.size)]
    simp
  dsimp only
  rw [hre]
  apply evictLoop_of_le
  show ((s.size : Nat) : Int) ≤ s.maxSize
  omega

/-- After any `Set`, the key is bound (in particular the fresh insert never
evicts itself) to an item carrying the deduplicated tags and the computed
expiry. -/
theorem lookup_set_self {s : Memory} (h : Good s) (now : Nat) (key : String)
    (v : GobValue) (ttl : Int) (tags : List String) :
    lookup key (Set s now key v ttl tags).items
      = some ⟨key, v, uniqueTags tags, mkExpiry now ttl⟩ := by
  cases hl : lookup key s.items with
  | some it0 =>
    rw [set_existing now v ttl tags hl, items_moveToHead]
    exact lookup_updateKey_self _ (mem_keys_of_lookup hl)
  | none =>
    by_cases hnp : s.maxSize ≤ 0
    · rw [set_new_no_evict now v ttl tags hl (Or.inl hnp)]
      exact lookup_cons_self key _ s.items
    · push_neg at hnp
      by_cases hle : (s.size : Int) + 1 ≤ s.maxSize
      · rw [set_new_no_evict now v ttl tags hl (Or.inr hle)]
        exact lookup_cons_self key _ s.items
      · have hfull : (s.size : Int) = s.maxSize := by
          have := h.2 hnp
          omega
        obtain ⟨tk, _, hne, heq⟩ := set_new_full_step h now v ttl tags hl hnp hfull
        rw [heq]
        exact lookup_cons_self key _ (eraseKey tk s.items)

/-! ### What the tag scans remove -/

theorem mem_keys_scanRemove {f : Item → Bool} :
    ∀ (l : List (String × Item)) {s : Memory}, Inv s → ∀ k : String,
      (k ∈ (scanRemove f l s).keys
        ↔ k ∈ s.keys ∧ ∀ it : Item, (k, it) ∈ l → f it = false) := by
  intro l
  induction l with
  | nil =>
    intro s h k
    simp [scanRemove]
  | cons p rest ih =>
    intro s h k
    obtain ⟨k0, it0⟩ := p
    cases hf : f it0 with
    | true =>
      rw [Memory.scanRemove]
      simp only [hf, if_true]
      rw [ih (h.removeEntry k0) k, mem_keys_removeEntry h]
      constructor
      · rintro ⟨⟨hks, hne⟩, hrest⟩
        refine ⟨hks, fun it hit => ?_⟩
        rcases List.mem_cons.1 hit with heq | hr
        · exact absurd (congrArg Prod.fst heq) hne
        · exact hrest it hr
      · rintro ⟨hks, hall⟩
        have hne : k ≠ k0 := by
          intro hkk
          subst hkk
          have hcontra := hall it0 (List.mem_cons_self _ _)
          rw [hf] at hcontra
          exact Bool.noConfusion hcontra
        exact ⟨⟨hks, hne⟩, fun it hr => hall it (List.mem_cons_of_mem _ hr)⟩
    | false =>
      rw [Memory.scanRemove]
      simp only [hf, Bool.false_eq_true, if_false]
      rw [ih h k]
      constructor
      · rintro ⟨hks, hrest⟩
        refine ⟨hks, fun it hit => ?_⟩
        rcases List.mem_cons.1 hit with heq | hr
        · have hit0 : it = it0 := congrArg Prod.snd heq
          rw [hit0]
          exact hf
        · exact hrest it hr
      · rintro ⟨hks, hall⟩
        exact ⟨hks, fun it hr => hall it (List.mem_cons_of_mem _ hr)⟩

theorem mem_keys_scanRemove_lookup {f : Item → Bool} {s : Memory} (h : Inv s)
    (k : String) :
    k ∈ (scanRemove f s.items s).keys
      ↔ ∃ it, lookup k s.items = some it ∧ f it = false := by
  rw [mem_keys_scanRemove s.items h k]
  constructor
  · rintro ⟨hks, hall⟩
    have hks' : k ∈ s.items.map Prod.fst := hks
    obtain ⟨⟨k1, it0⟩, hp, hfst⟩ := List.mem_map.1 hks'
    have hk1 : k1 = k := hfst
    subst hk1
    exact ⟨it0, lookup_of_mem_nodup h.nodupKeys hp, hall it0 hp⟩
  · rintro ⟨it0, hlk, hfv⟩
    refine ⟨mem_keys_of_lookup hlk, fun it hit => ?_⟩
    have hlk2 := lookup_of_mem_nodup h.nodupKeys hit
    rw [hlk] at hlk2
    have hit0 : it0 = it := by
      injection hlk2
    rw [← hit0]
    exact hfv

/-- `RemoveByTag` keeps exactly the present entries that are neither expired
nor tagged with `tag`. -/
theorem mem_keys_removeByTag {s : Memory} (h : Inv s) (now : Nat) (tag : String)
    (k : String) :
    k ∈ (RemoveByTag s now tag).keys
      ↔ ∃ it, lookup k s.items = some it
          ∧ isExpired it now = false ∧ it.tags.contains tag = false := by
  rw [RemoveByTag, removeByTagLoop_eq_scanRemove, mem_keys_scanRemove_lookup h k]
  refine exists_congr (fun it => and_congr_right (fun _ => ?_))
  rw [Bool.or_eq_false_iff]

/-- `RemoveByTags` keeps exactly the present entries that are neither
expired nor tagged with any of the given tags. -/
theorem mem_keys_removeByTags {s : Memory} (h : Inv s) (now : Nat)
    (tags : List String) (k : String) :
    k ∈ (RemoveByTags s now tags).keys
      ↔ ∃ it, lookup k s.items = some it
          ∧ isExpired it now = false
          ∧ tags.any (fun t => it.tags.contains t) = false := by
  rw [RemoveByTags, removeByTagsLoop_eq_scanRemove, mem_keys_scanRemove_lookup h k]
  refine exists_congr (fun it => and_congr_right (fun _ => ?_))
  rw [Bool.or_eq_false_iff]

/-! ### Filling a store by successive inserts -/

theorem lookup_cons_ne {key k : String} (hne : key ≠ k) (it : Item)
    (l : List (String × Item)) :
    lookup k ((key, it) :: l) = lookup k l := by
  rw [lookup, if_neg hne]

theorem runOps_append (l1 l2 : List (Nat × Op)) :
    ∀ s : Memory, runOps s (l1 ++ l2) = runOps (runOps s l1) l2 := by
  induction l1 with
  | nil => intro s; rfl
  | cons p rest ih =>
    intro s
    obtain ⟨now, op⟩ := p
    rw [List.cons_append, runOps, runOps]
    exact ih _

/-- Inserting a list of fresh, pairwise-distinct keys into a store with
enough room (or no bound) stacks them at the head, newest first, and evicts
nothing. -/
theorem runOps_sets_no_evict (now : Nat) (v : GobValue) (ttl : Int)
    (tags : List String) :
    ∀ (ks : List String) (s : Memory), Good s →
      (∀ k ∈ ks, lookup k s.items = none) → ks.Nodup →
      (s.maxSize ≤ 0 ∨ (s.size : Int) + ks.length ≤ s.maxSize) →
      runOps s (ks.map (fun k => (now, Op.set k v ttl tags)))
        = Memory.mk
            ((ks.map (fun k => (k, (⟨k, v, uniqueTags tags, mkExpiry now ttl⟩ : Item)))).reverse
              ++ s.items)
            (ks.reverse ++ s.order) s.maxSize (s.size + ks.length) := by
  intro ks
  induction ks with
  | nil =>
    intro s hg hfresh hnd hroom
    show s = _
    simp
  | cons k ks ih =>
    intro s hg hfresh hnd hroom
    rw [List.map_cons, runOps]
    show runOps (Set s now k v ttl tags) (ks.map (fun k => (now, Op.set k v ttl tags))) = _
    have hl : lookup k s.items = none := hfresh k (List.mem_cons_self _ _)
    have hroom1 : s.maxSize ≤ 0 ∨ (s.size : Int) + 1 ≤ s.maxSize := by
      rcases hroom with h | h
      · exact Or.inl h
      · right
        rw [List.length_cons] at h
        push_cast at h
        omega
    rw [set_new_no_evict now v ttl tags hl hroom1]
    rw [List.nodup_cons] at hnd
    have hg1 :
        Good (Memory.mk
          ((k, (⟨k, v, uniqueTags tags, mkExpiry now ttl⟩ : Item)) :: s.items)
          (k :: s.order) s.maxSize (s.size + 1)) := by
      have hgs := good_set hg now k v ttl tags
      rw [set_new_no_evict now v ttl tags hl hroom1] at hgs
      exact hgs
    have hfresh1 :
        ∀ k' ∈ ks,
          lookup k' (Memory.mk
            ((k, (⟨k, v, uniqueTags tags, mkExpiry now ttl⟩ : Item)) :: s.items)
            (k :: s.order) s.maxSize (s.size + 1)).items = none := by
      intro k' hk'
      have hkne : k ≠ k' := fun he => hnd.1 (he ▸ hk')
      show lookup k' ((k, _) :: s.items) = none
      rw [lookup_cons_ne hkne]
      exact hfresh k' (List.mem_cons_of_mem _ hk')
    have hroom2 :
        (Memory.mk
            ((k, (⟨k, v, uniqueTags tags, mkExpiry now ttl⟩ : Item)) :: s.items)
            (k :: s.order) s.maxSize (s.size + 1)).maxSize ≤ 0
          ∨ ((Memory.mk
              ((k, (⟨k, v, uniqueTags tags, mkExpiry now ttl⟩ : Item)) :: s.items)
              (k :: s.order) s.maxSize (s.size + 1)).size : Int) + ks.length
            ≤ (Memory.mk
              ((k, (⟨k, v, uniqueTags tags, mkExpiry now ttl⟩ : Item)) :: s.items)
              (k :: s.order) s.maxSize (s.size + 1)).maxSize := by
      rcases hroom with h | h
      · exact Or.inl h
      · right
        rw [List.length_cons] at h
        show ((s.size + 1 : Nat) : Int) + ks.length ≤ s.maxSize
        push_cast at h ⊢
        omega
    rw [ih _ hg1 hfresh1 hnd.2 hroom2]
    simp only [List.map_cons, List.reverse_cons, List.append_assoc, List.singleton_append,
      List.length_cons]
    congr 1
    omega

/-- Inserting `N + 1` distinct fresh keys into a fresh store of capacity
`N ≥ 1` leaves exactly the last `N` keys, in reverse insertion order: the
first-inserted key is the one evicted. -/
theorem runOps_fill_then_overflow {N : Nat} {k0 : String} {rest : List String}
    (now : Nat) (v : GobValue) (ttl : Int) (tags : List String)
    (hN : 0 < N) (hlen : rest.length = N) (hnd : (k0 :: rest).Nodup) :
    (runOps (NewWithConfig (N : Int))
        ((k0 :: rest).map (fun k => (now, Op.set k v ttl tags)))).order = rest.reverse
    ∧ (runOps (NewWithConfig (N : Int))
        ((k0 :: rest).map (fun k => (now, Op.set k v ttl tags)))).keys = rest.reverse := by
  obtain ⟨mid, klast, hrest⟩ : ∃ L b, rest = L ++ [b] := by
    rcases List.eq_nil_or_concat rest with he | ⟨L, b, hLb⟩
    · rw [he] at hlen
      simp at hlen
      omega
    · exact ⟨L, b, by rw [hLb, List.concat_eq_append]⟩
  subst hrest
  rw [List.nodup_cons] at hnd
  have hk0rest : k0 ∉ mid ++ [klast] := hnd.1
  have hk0mid : k0 ∉ mid := fun hm => hk0rest (List.mem_append_left _ hm)
  have hk0last : k0 ≠ klast := by
    intro he
    exact hk0rest (List.mem_append_right _ (he ▸ List.mem_cons_self _ _))
  have hmidnd : (mid ++ [klast]).Nodup := hnd.2
  have hklastmid : klast ∉ mid := by
    rw [List.nodup_append] at hmidnd
    intro hm
    exact hmidnd.2.2 hm (List.mem_cons_self _ _)
  have hlen2 : mid.length + 1 = N := by
    rw [List.length_append] at hlen
    simpa using hlen
  -- split the trace after the first N inserts
  have htrace :
      (k0 :: (mid ++ [klast])).map (fun k => (now, Op.set k v ttl tags))
        = ((k0 :: mid).map (fun k => (now, Op.set k v ttl tags)))
          ++ [(now, Op.set klast v ttl tags)] := by
    rw [show k0 :: (mid ++ [klast]) = (k0 :: mid) ++ [klast] from rfl, List.map_append]
    rfl
  rw [htrace, runOps_append]
  have hndfront : (k0 :: mid).Nodup := by
    refine List.Nodup.sublist ?_ (List.nodup_cons.2 ⟨hk0rest, hmidnd⟩)
    exact List.Sublist.cons₂ k0 (List.sublist_append_left mid [klast])
  have hfront :=
    runOps_sets_no_evict now v ttl tags (k0 :: mid) (NewWithConfig (N : Int))
      (good_NewWithConfig _) (fun k _ => rfl) hndfront
      (Or.inr (by
        show ((0 : Nat) : Int) + ((k0 :: mid).length : Int) ≤ (N : Int)
        rw [List.length_cons]
        push_cast
        omega))
  rw [hfront]
  -- the (N+1)-st insert on the now-full store
  have hs1good :
      Good (Memory.mk
        (((k0 :: mid).map
            (fun k => (k, (⟨k, v, uniqueTags tags, mkExpiry now ttl⟩ : Item)))).reverse
          ++ (NewWithConfig (N : Int)).items)
        ((k0 :: mid).reverse ++ (NewWithConfig (N : Int)).order)
        (NewWithConfig (N : Int)).maxSize
        ((NewWithConfig (N : Int)).size + (k0 :: mid).length)) := by
    rw [← hfront]
    exact good_runOps _ _ (good_NewWithConfig _)
  have hkeys1 :
      (Memory.mk
        (((k0 :: mid).map
            (fun k => (k, (⟨k, v, uniqueTags tags, mkExpiry now ttl⟩ : Item)))).reverse
          ++ (NewWithConfig (N : Int)).items)
        ((k0 :: mid).reverse ++ (NewWithConfig (N : Int)).order)
        (NewWithConfig (N : Int)).maxSize
        ((NewWithConfig (N : Int)).size + (k0 :: mid).length)).keys
        = mid.reverse ++ [k0] := by
    show ((((k0 :: mid).map
        (fun k => (k, (⟨k, v, uniqueTags tags, mkExpiry now ttl⟩ : Item)))).reverse
          ++ []).map Prod.fst) = mid.reverse ++ [k0]
    rw [List.append_nil, List.map_reverse, List.map_map]
    simp [List.reverse_cons, Function.comp_def]
  have horder1 :
      (Memory.mk
        (((k0 :: mid).map
            (fun k => (k, (⟨k, v, uniqueTags tags, mkExpiry now ttl⟩ : Item)))).reverse
          ++ (NewWithConfig (N : Int)).items)
        ((k0 :: mid).reverse ++ (NewWithConfig (N : Int)).order)
        (NewWithConfig (N : Int)).maxSize
        ((NewWithConfig (N : Int)).size + (k0 :: mid).length)).order
        = mid.reverse ++ [k0] := by
    show (k0 :: mid).reverse ++ [] = mid.reverse ++ [k0]
    rw [List.append_nil, List.reverse_cons]
  have hlfresh :
      lookup klast (Memory.mk
        (((k0 :: mid).map
            (fun k => (k, (⟨k, v, uniqueTags tags, mkExpiry now ttl⟩ : Item)))).reverse
          ++ (NewWithConfig (N : Int)).items)
        ((k0 :: mid).reverse ++ (NewWithConfig (N : Int)).order)
        (NewWithConfig (N : Int)).maxSize
        ((NewWithConfig (N : Int)).size + (k0 :: mid).length)).items = none := by
    rw [lookup_eq_none]
    show klast ∉ (Memory.mk _ _ _ _).keys
    rw [hkeys1]
    intro hm
    rcases List.mem_append.1 hm with hm | hm
    · exact hklastmid (List.mem_reverse.1 hm)
    · rcases List.mem_cons.1 hm with he | he
      · exact hk0last he.symm
      · cases he
  obtain ⟨tailKey, htk, htkne, heq⟩ :=
    set_new_full_step hs1good now v ttl tags hlfresh
      (by
        show (0 : Int) < (N : Int)
        exact_mod_cast hN)
      (by
        show ((0 + (k0 :: mid).length : Nat) : Int) = (N : Int)
        rw [List.length_cons]
        push_cast
        omega)
  have htailk0 : tailKey = k0 := by
    rw [horder1, List.getLast?_concat] at htk
    injection htk with h2
    exact h2.symm
  rw [htailk0] at heq
  show (applyOp _ now (Op.set klast v ttl tags)).order = (mid ++ [klast]).reverse
    ∧ (applyOp _ now (Op.set klast v ttl tags)).keys = (mid ++ [klast]).reverse
  show (Set _ now klast v ttl tags).order = _ ∧ (Set _ now klast v ttl tags).keys = _
  rw [heq]
  have herase : ((k0 :: mid).reverse ++ (NewWithConfig (N : Int)).order).erase k0
      = mid.reverse := by
    rw [show ((k0 :: mid).reverse ++ (NewWithConfig (N : Int)).order)
        = mid.reverse ++ [k0] from by
      show (k0 :: mid).reverse ++ [] = mid.reverse ++ [k0]
      rw [List.append_nil, List.reverse_cons]]
    rw [List.erase_append_right _ (fun hm => hk0mid (List.mem_reverse.1 hm)),
      List.erase_cons_head, List.append_nil]
  constructor
  · show klast :: ((k0 :: mid).reverse ++ (NewWithConfig (N : Int)).order).erase k0
        = (mid ++ [klast]).reverse
    rw [herase, List.reverse_append]
    rfl
  · show ((klast, (⟨klast, v, uniqueTags tags, mkExpiry now ttl⟩ : Item))
        :: eraseKey k0 (((k0 :: mid).map
            (fun k => (k, (⟨k, v, uniqueTags tags, mkExpiry now ttl⟩ : Item)))).reverse
          ++ (NewWithConfig (N : Int)).items)).map Prod.fst
        = (mid ++ [klast]).reverse
    rw [List.map_cons, keys_eraseKey]
    have hk1 : ((((k0 :: mid).map
        (fun k => (k, (⟨k, v, uniqueTags tags, mkExpiry now ttl⟩ : Item)))).reverse
          ++ (NewWithConfig (N : Int)).items).map Prod.fst) = mid.reverse ++ [k0] :=
      hkeys1
    rw [hk1]
    rw [List.erase_append_right _ (fun hm => hk0mid (List.mem_reverse.1 hm)),
      List.erase_cons_head, List.append_nil, List.reverse_append]
    rfl

end Memory

/-! ## The claims -/

/-- C1: for every sequence of operations starting from a freshly constructed
store, afterwards the `size` counter equals the number of entries in the
key-to-entry map and equals the number of non-sentinel nodes in the recency
list between head and tail. -/
theorem C1_size_counter_consistent (cap : Int) (ops : List (Nat × Memory.Op)) :
    (Memory.runOps (Memory.NewWithConfig cap) ops).size
        = (Memory.runOps (Memory.NewWithConfig cap) ops).items.length
      ∧ (Memory.runOps (Memory.NewWithConfig cap) ops).size
        = (Memory.runOps (Memory.NewWithConfig cap) ops).order.length := by
  have h := Memory.good_runOps ops _ (Memory.good_NewWithConfig cap)
  exact ⟨by rw [h.1.sizeOrder, h.1.itemsOrder], h.1.sizeOrder⟩

/-- C2: for every store constructed with capacity `cap > 0` and every
reachable state, immediately after any `Set` returns, `size ≤ cap`. -/
theorem C2_capacity_bound_after_set (cap : Int) (hcap : 0 < cap)
    (ops : List (Nat × Memory.Op)) (now : Nat) (key : String) (v : GobValue)
    (ttl : Int) (tags : List String) :
    ((Memory.Set (Memory.runOps (Memory.NewWithConfig cap) ops) now key v ttl tags).size : Int)
      ≤ cap := by
  have h := Memory.good_runOps ops _ (Memory.good_NewWithConfig cap)
  have hset := Memory.good_set h now key v ttl tags
  have hmax :
      (Memory.Set (Memory.runOps (Memory.NewWithConfig cap) ops) now key v ttl tags).maxSize
        = cap := by
    rw [Memory.maxSize_set, Memory.maxSize_runOps]
    rfl
  have := hset.2 (by rw [hmax]; exact hcap)
  rw [hmax] at this
  exact this

/-- Witness for C2 at a concrete input. -/
theorem C2_capacity_bound_after_set_witness :
    (0 : Int) < 1 ∧
      ((Memory.Set (Memory.runOps (Memory.NewWithConfig 1) []) 0 "a"
          (GobValue.intVal 0) 0 []).size : Int) ≤ 1 :=
  ⟨by decide, C2_capacity_bound_after_set 1 (by decide) [] 0 "a" (GobValue.intVal 0) 0 []⟩

/-- Go `int` arithmetic agrees with unbounded arithmetic exactly while the
result stays inside the signed 64-bit range. -/
theorem wrap64_eq_self (m : Int) (h1 : -(2 ^ 63) ≤ m) (h2 : m < 2 ^ 63) :
    wrap64 m = m := by
  have h63 : (2 : Int) ^ 63 = 9223372036854775808 := by norm_num
  have h64 : (2 : Int) ^ 64 = 18446744073709551616 := by norm_num
  rw [h63] at h1 h2
  rw [wrap64, h63, h64, Int.emod_eq_of_lt (by omega) (by omega)]
  omega

/-- C8, counterexample to the claim as stated: the claim quantifies over
every stored integer `n`, but Go `int` arithmetic wraps at the 64-bit
boundary, so incrementing a stored `2^63 - 1` yields `-(2^63)`, not
`n + 1 = 2^63`. -/
theorem C8_increment_overflow_counterexample :
    (Memory.Increment (Memory.Set (Memory.NewWithConfig 0) 0 "k"
          (GobValue.intVal (2 ^ 63 - 1)) 0 []) 0 "k").1 = Except.ok ()
      ∧ (Memory.Get (Memory.Increment (Memory.Set (Memory.NewWithConfig 0) 0 "k"
            (GobValue.intVal (2 ^ 63 - 1)) 0 []) 0 "k").2 0 "k" GKind.kInt).1
          = Except.ok (GobValue.intVal (-(2 ^ 63)))
      ∧ (Memory.Get (Memory.Increment (Memory.Set (Memory.NewWithConfig 0) 0 "k"
            (GobValue.intVal (2 ^ 63 - 1)) 0 []) 0 "k").2 0 "k" GKind.kInt).1
          ≠ Except.ok (GobValue.intVal ((2 ^ 63 - 1) + 1)) := by
  decide

/-- C8, amended: on a present, unexpired key holding an integer payload `n`,
`Increment` followed by `Get` yields `n + 1` and `Decrement` followed by
`Get` yields `n - 1`, **provided the result fits in a signed 64-bit integer**
(Go `int` wraps at the boundary); in particular `Set(key, 5)`; `Increment`;
`Get` = 6; two further `Decrement`s; `Get` = 4. -/
theorem C8_increment_decrement_roundtrip (s : Memory) (now : Nat) (key : String)
    (it : Item) (n : Int) (hl : lookup key s.items = some it)
    (he : Memory.isExpired it now = false) (hv : it.value = GobValue.intVal n) :
    (-(2 ^ 63) ≤ n + 1 → n + 1 < 2 ^ 63 →
        (Memory.Get (Memory.Increment s now key).2 now key GKind.kInt).1
          = Except.ok (GobValue.intVal (n + 1)))
    ∧ (-(2 ^ 63) ≤ n - 1 → n - 1 < 2 ^ 63 →
        (Memory.Get (Memory.Decrement s now key).2 now key GKind.kInt).1
          = Except.ok (GobValue.intVal (n - 1)))
    ∧ ((Memory.Get ((Memory.Increment
            (Memory.Set (Memory.NewWithConfig 0) 0 "k" (GobValue.intVal 5) 0 []) 0 "k").2)
          0 "k" GKind.kInt).1 = Except.ok (GobValue.intVal 6)
        ∧ (Memory.Get ((Memory.Decrement ((Memory.Decrement ((Memory.Get ((Memory.Increment
              (Memory.Set (Memory.NewWithConfig 0) 0 "k" (GobValue.intVal 5) 0 []) 0 "k").2)
              0 "k" GKind.kInt).2) 0 "k").2) 0 "k").2) 0 "k" GKind.kInt).1
            = Except.ok (GobValue.intVal 4)) := by
  refine ⟨?_, ?_, by decide⟩
  · intro h1 h2
    rw [Memory.increment_live_int now hl he hv]
    dsimp only
    have hlook :
        lookup key
            (Memory.mk
              (updateKey key { it with value := GobValue.intVal (wrap64 (n + 1)) } s.items)
              (key :: s.order.erase key) s.maxSize s.size).items
          = some { it with value := GobValue.intVal (wrap64 (n + 1)) } :=
      lookup_updateKey_self _ (mem_keys_of_lookup hl)
    have he2 :
        Memory.isExpired ({ it with value := GobValue.intVal (wrap64 (n + 1)) } : Item) now
          = false := he
    have hk2 : ({ it with value := GobValue.intVal (wrap64 (n + 1)) } : Item).value.kind
        = GKind.kInt := rfl
    rw [Memory.get_live_ok now hlook he2 hk2]
    dsimp only
    rw [wrap64_eq_self (n + 1) h1 h2]
  · intro h1 h2
    rw [Memory.decrement_live_int now hl he hv]
    dsimp only
    have hlook :
        lookup key
            (Memory.mk
              (updateKey key { it with value := GobValue.intVal (wrap64 (n - 1)) } s.items)
              (key :: s.order.erase key) s.maxSize s.size).items
          = some { it with value := GobValue.intVal (wrap64 (n - 1)) } :=
      lookup_updateKey_self _ (mem_keys_of_lookup hl)
    have he2 :
        Memory.isExpired ({ it with value := GobValue.intVal (wrap64 (n - 1)) } : Item) now
          = false := he
    have hk2 : ({ it with value := GobValue.intVal (wrap64 (n - 1)) } : Item).value.kind
        = GKind.kInt := rfl
    rw [Memory.get_live_ok now hlook he2 hk2]
    dsimp only
    rw [wrap64_eq_self (n - 1) h1 h2]

/-- Witness for the amended C8 at a concrete input. -/
theorem C8_increment_decrement_roundtrip_witness :
    (Memory.Get (Memory.Increment
          (Memory.mk [("k", ⟨"k", GobValue.intVal 5, [], none⟩)] ["k"] 0 1) 0 "k").2
        0 "k" GKind.kInt).1
      = Except.ok (GobValue.intVal (5 + 1)) :=
  (C8_increment_decrement_roundtrip
      (Memory.mk [("k", ⟨"k", GobValue.intVal 5, [], none⟩)] ["k"] 0 1) 0 "k"
      ⟨"k", GobValue.intVal 5, [], none⟩ 5 (by decide) (by decide) (by decide)).1
    (by decide) (by decide)

/-- C9: `Get`, `Increment` and `Decrement` fail with the NotFound error
exactly when the key is absent or lazily discovered expired; `Increment` and
`Decrement` fail with the distinct NotInteger error exactly when the stored
payload does not decode as an integer; `Get` surfaces a decode failure of
the caller's output as an error distinct from NotFound exactly on a payload
kind mismatch; and `Exists` reports absence or expiry as the boolean `false`
(its error component is always nil). -/
theorem C9_error_taxonomy (s : Memory) (now : Nat) (key : String) (kind : GKind) :
    ((Memory.Get s now key kind).1 = Except.error CErr.notFound
        ↔ lookup key s.items = none
          ∨ ∃ it, lookup key s.items = some it ∧ Memory.isExpired it now = true)
    ∧ ((Memory.Get s now key kind).1 = Except.error CErr.decodeError
        ↔ ∃ it, lookup key s.items = some it ∧ Memory.isExpired it now = false
            ∧ it.value.kind ≠ kind)
    ∧ ((Memory.Increment s now key).1 = Except.error CErr.notFound
        ↔ lookup key s.items = none
          ∨ ∃ it, lookup key s.items = some it ∧ Memory.isExpired it now = true)
    ∧ ((Memory.Increment s now key).1 = Except.error CErr.notInteger
        ↔ ∃ it, lookup key s.items = some it ∧ Memory.isExpired it now = false
            ∧ it.value.kind ≠ GKind.kInt)
    ∧ ((Memory.Decrement s now key).1 = Except.error CErr.notFound
        ↔ lookup key s.items = none
          ∨ ∃ it, lookup key s.items = some it ∧ Memory.isExpired it now = true)
    ∧ ((Memory.Decrement s now key).1 = Except.error CErr.notInteger
        ↔ ∃ it, lookup key s.items = some it ∧ Memory.isExpired it now = false
            ∧ it.value.kind ≠ GKind.kInt)
    ∧ ((Memory.Exists s now key).1 = false
        ↔ lookup key s.items = none
          ∨ ∃ it, lookup key s.items = some it ∧ Memory.isExpired it now = true) := by
  cases hl : lookup key s.items with
  | none =>
    rw [Memory.get_absent now kind hl, Memory.increment_absent now hl,
      Memory.decrement_absent now hl, Memory.exists_absent now hl]
    simp [hl]
  | some it =>
    cases he : Memory.isExpired it now with
    | true =>
      rw [Memory.get_expired now kind hl he, Memory.increment_expired now hl he,
        Memory.decrement_expired now hl he, Memory.exists_expired now hl he]
      simp [hl, he]
    | false =>
      rw [Memory.exists_live now hl he]
      cases hv : it.value with
      | intVal n =>
        by_cases hk : (GobValue.intVal n).kind = kind
        · rw [Memory.get_live_ok now hl he (by rw [hv]; exact hk),
            Memory.increment_live_int now hl he hv, Memory.decrement_live_int now hl he hv]
          simp [hl, he, hv, ← hk, GobValue.kind]
        · have hk' : GKind.kInt ≠ kind := by simpa [GobValue.kind] using hk
          rw [Memory.get_live_mismatch now hl he (by rw [hv]; exact hk),
            Memory.increment_live_int now hl he hv, Memory.decrement_live_int now hl he hv]
          simp [hl, he, hv, hk', GobValue.kind]
      | strVal str =>
        by_cases hk : (GobValue.strVal str).kind = kind
        · rw [Memory.get_live_ok now hl he (by rw [hv]; exact hk),
            Memory.increment_live_notInt now hl he hv, Memory.decrement_live_notInt now hl he hv]
          simp [hl, he, hv, ← hk, GobValue.kind]
        · have hk' : GKind.kStr ≠ kind := by simpa [GobValue.kind] using hk
          rw [Memory.get_live_mismatch now hl he (by rw [hv]; exact hk),
            Memory.increment_live_notInt now hl he hv, Memory.decrement_live_notInt now hl he hv]
          simp [hl, he, hv, hk', GobValue.kind]

/-- C10: on a present, unexpired key whose payload is not integer-decodable,
a failing `Increment`/`Decrement` (NotInteger) has already moved the entry
to the head of the recency list, and a `Get` failing with a decode error
likewise leaves the entry moved to head: the error paths are not atomic
with respect to recency order. -/
theorem C10_error_paths_refresh_recency (s : Memory) (now : Nat) (key : String)
    (outKind : GKind) (it : Item) (hl : lookup key s.items = some it)
    (he : Memory.isExpired it now = false) :
    (it.value.kind ≠ GKind.kInt →
        Memory.Increment s now key
            = (Except.error CErr.notInteger, Memory.moveToHead s key)
          ∧ Memory.Decrement s now key
            = (Except.error CErr.notInteger, Memory.moveToHead s key))
    ∧ (it.value.kind ≠ outKind →
        Memory.Get s now key outKind
          = (Except.error CErr.decodeError, Memory.moveToHead s key))
    ∧ (Memory.moveToHead s key).order = key :: s.order.erase key := by
  refine ⟨fun hk => ?_, fun hk => Memory.get_live_mismatch now hl he hk, rfl⟩
  cases hv : it.value with
  | intVal n =>
    rw [hv] at hk
    exact absurd rfl hk
  | strVal str =>
    exact ⟨Memory.increment_live_notInt now hl he hv,
      Memory.decrement_live_notInt now hl he hv⟩

/-- Witness for C10 at a concrete input: a store holding a single string
payload under key `"a"`. -/
theorem C10_error_paths_refresh_recency_witness :
    lookup "a" (Memory.mk [("a", ⟨"a", GobValue.strVal "x", [], none⟩)] ["a"] 0 1).items
        = some ⟨"a", GobValue.strVal "x", [], none⟩
      ∧ Memory.isExpired ⟨"a", GobValue.strVal "x", [], none⟩ 0 = false
      ∧ ((⟨"a", GobValue.strVal "x", [], none⟩ : Item).value.kind ≠ GKind.kInt →
          Memory.Increment (Memory.mk [("a", ⟨"a", GobValue.strVal "x", [], none⟩)] ["a"] 0 1) 0 "a"
              = (Except.error CErr.notInteger,
                  Memory.moveToHead
                    (Memory.mk [("a", ⟨"a", GobValue.strVal "x", [], none⟩)] ["a"] 0 1) "a")
            ∧ Memory.Decrement (Memory.mk [("a", ⟨"a", GobValue.strVal "x", [], none⟩)] ["a"] 0 1) 0 "a"
              = (Except.error CErr.notInteger,
                  Memory.moveToHead
                    (Memory.mk [("a", ⟨"a", GobValue.strVal "x", [], none⟩)] ["a"] 0 1) "a"))
      ∧ ((⟨"a", GobValue.strVal "x", [], none⟩ : Item).value.kind ≠ GKind.kInt →
          Memory.Get (Memory.mk [("a", ⟨"a", GobValue.strVal "x", [], none⟩)] ["a"] 0 1) 0 "a" GKind.kInt
            = (Except.error CErr.decodeError,
                Memory.moveToHead
                  (Memory.mk [("a", ⟨"a", GobValue.strVal "x", [], none⟩)] ["a"] 0 1) "a"))
      ∧ (Memory.moveToHead
            (Memory.mk [("a", ⟨"a", GobValue.strVal "x", [], none⟩)] ["a"] 0 1) "a").order
          = "a" :: (Memory.mk [("a", ⟨"a", GobValue.strVal "x", [], none⟩)] ["a"] 0 1).order.erase "a" := by
  have h := C10_error_paths_refresh_recency
    (Memory.mk [("a", ⟨"a", GobValue.strVal "x", [], none⟩)] ["a"] 0 1) 0 "a" GKind.kInt
    ⟨"a", GobValue.strVal "x", [], none⟩ (by decide) (by decide)
  exact ⟨by decide, by decide, h.1, h.2.1, h.2.2⟩

/-- C4: every `Set(key, value, ttl, tags)` stores the entry with expiry
`now + ttl` when `ttl > 0` and with the absent (zero) expiry when
`ttl ≤ 0`, so a key set with `ttl = 0` never expires and remains
retrievable by `Get` at any later time. -/
theorem C4_ttl_expiry_semantics (cap : Int) (ops : List (Nat × Memory.Op)) (now : Nat)
    (key : String) (v : GobValue) (ttl : Int) (tags : List String) :
    (∃ it,
        lookup key
            (Memory.Set (Memory.runOps (Memory.NewWithConfig cap) ops) now key v ttl tags).items
          = some it
        ∧ it.expiry = (if 0 < ttl then some (now + ttl.toNat) else none)
        ∧ it.value = v)
    ∧ (ttl ≤ 0 →
        ∀ now2 : Nat,
          (Memory.Get
              (Memory.Set (Memory.runOps (Memory.NewWithConfig cap) ops) now key v ttl tags)
              now2 key v.kind).1
            = Except.ok v) := by
  have hg := Memory.good_runOps ops _ (Memory.good_NewWithConfig cap)
  have hits := Memory.lookup_set_self hg now key v ttl tags
  constructor
  · exact ⟨_, hits, rfl, rfl⟩
  · intro httl now2
    have hnexp :
        Memory.isExpired (⟨key, v, Memory.uniqueTags tags, Memory.mkExpiry now ttl⟩ : Item) now2
          = false := by
      have hexp : Memory.mkExpiry now ttl = none := by
        rw [Memory.mkExpiry, if_neg (by omega)]
      simp [Memory.isExpired, hexp]
    rw [Memory.get_live_ok now2 hits hnexp rfl]

/-- Witness for C4 at a concrete input (`ttl = 0`). -/
theorem C4_ttl_expiry_semantics_witness :
    (∃ it,
        lookup "a"
            (Memory.Set (Memory.runOps (Memory.NewWithConfig 0) []) 3 "a"
              (GobValue.intVal 5) 0 []).items
          = some it
        ∧ it.expiry = (if (0 : Int) < 0 then some (3 + (0 : Int).toNat) else none)
        ∧ it.value = GobValue.intVal 5)
    ∧ (Memory.Get
          (Memory.Set (Memory.runOps (Memory.NewWithConfig 0) []) 3 "a"
            (GobValue.intVal 5) 0 [])
          7 "a" (GobValue.intVal 5).kind).1
        = Except.ok (GobValue.intVal 5) :=
  ⟨(C4_ttl_expiry_semantics 0 [] 3 "a" (GobValue.intVal 5) 0 []).1,
    (C4_ttl_expiry_semantics 0 [] 3 "a" (GobValue.intVal 5) 0 []).2 (by decide) 7⟩

/-- C6: on a present, unexpired key, `Exists` answers `true` and returns the
store completely unchanged (in particular the recency order); consequently,
probing the oldest key of a full store with `Exists` and then inserting a
fresh key still evicts the probed key, while reading it with `Get` instead
protects it and evicts the second-oldest key. -/
theorem C6_exists_does_not_refresh_recency :
    (∀ (s : Memory) (now : Nat) (key : String) (it : Item),
        lookup key s.items = some it → Memory.isExpired it now = false →
          Memory.Exists s now key = (true, s))
    ∧ ((Memory.Exists
          (Memory.Set (Memory.Set (Memory.NewWithConfig 2) 0 "a" (GobValue.strVal "va") 0 [])
            0 "b" (GobValue.strVal "vb") 0 []) 0 "a").1 = true
      ∧ "a" ∉ (Memory.Set
          (Memory.Exists
            (Memory.Set (Memory.Set (Memory.NewWithConfig 2) 0 "a" (GobValue.strVal "va") 0 [])
              0 "b" (GobValue.strVal "vb") 0 []) 0 "a").2
          0 "c" (GobValue.strVal "vc") 0 []).keys
      ∧ "a" ∈ (Memory.Set
          (Memory.Get
            (Memory.Set (Memory.Set (Memory.NewWithConfig 2) 0 "a" (GobValue.strVal "va") 0 [])
              0 "b" (GobValue.strVal "vb") 0 []) 0 "a" GKind.kStr).2
          0 "c" (GobValue.strVal "vc") 0 []).keys
      ∧ "b" ∉ (Memory.Set
          (Memory.Get
            (Memory.Set (Memory.Set (Memory.NewWithConfig 2) 0 "a" (GobValue.strVal "va") 0 [])
              0 "b" (GobValue.strVal "vb") 0 []) 0 "a" GKind.kStr).2
          0 "c" (GobValue.strVal "vc") 0 []).keys) := by
  refine ⟨fun s now key it hl he => Memory.exists_live now hl he, ?_⟩
  decide

/-- C5, counterexample to the claim as stated: the code treats an entry as
expired only when `ExpiryTime` is strictly *before* `now` (`time.Before`),
not when it is `≤ now`.  A key set at time 0 with `ttl = 5` has
`expiresAt = 5 ≤ 5 = now`, yet `Get` at time 5 returns the value and leaves
the entry in both the map and the recency list. -/
theorem C5_expiry_boundary_counterexample :
    lookup "a" (Memory.Set (Memory.NewWithConfig 0) 0 "a" (GobValue.intVal 1) 5 []).items
        = some ⟨"a", GobValue.intVal 1, [], some 5⟩
      ∧ (Memory.Get (Memory.Set (Memory.NewWithConfig 0) 0 "a" (GobValue.intVal 1) 5 []) 5 "a"
            GKind.kInt).1 ≠ Except.error CErr.notFound
      ∧ (Memory.Get (Memory.Set (Memory.NewWithConfig 0) 0 "a" (GobValue.intVal 1) 5 []) 5 "a"
            GKind.kInt).1 = Except.ok (GobValue.intVal 1)
      ∧ "a" ∈ (Memory.Get (Memory.Set (Memory.NewWithConfig 0) 0 "a" (GobValue.intVal 1) 5 []) 5 "a"
            GKind.kInt).2.keys
      ∧ "a" ∈ (Memory.Get (Memory.Set (Memory.NewWithConfig 0) 0 "a" (GobValue.intVal 1) 5 []) 5 "a"
            GKind.kInt).2.order := by
  decide

/-- C5, amended (expiry is strict: `expiresAt < now`, not `≤ now`): on any
reachable store, if a present key's `expiresAt` is set and strictly before
`now`, `Get` removes the entry from both the recency list and the map and
returns NotFound; and `Get` never returns a value whose expiry is strictly
before `now`. -/
theorem C5_lazy_expiry_on_get (cap : Int) (ops : List (Nat × Memory.Op)) (now : Nat)
    (key : String) (kind : GKind) :
    (∀ (it : Item) (e : Nat),
        lookup key (Memory.runOps (Memory.NewWithConfig cap) ops).items = some it →
        it.expiry = some e → e < now →
          Memory.Get (Memory.runOps (Memory.NewWithConfig cap) ops) now key kind
              = (Except.error CErr.notFound,
                  Memory.removeEntry (Memory.runOps (Memory.NewWithConfig cap) ops) key)
            ∧ key ∉ (Memory.Get (Memory.runOps (Memory.NewWithConfig cap) ops) now key kind).2.keys
            ∧ key ∉ (Memory.Get (Memory.runOps (Memory.NewWithConfig cap) ops) now key kind).2.order)
    ∧ (∀ v : GobValue,
        (Memory.Get (Memory.runOps (Memory.NewWithConfig cap) ops) now key kind).1
            = Except.ok v →
          ∃ it, lookup key (Memory.runOps (Memory.NewWithConfig cap) ops).items = some it
            ∧ it.value = v ∧ ∀ e : Nat, it.expiry = some e → now ≤ e) := by
  have hg := Memory.good_runOps ops _ (Memory.good_NewWithConfig cap)
  constructor
  · intro it e hl hexp hlt
    have he : Memory.isExpired it now = true := by
      simp [Memory.isExpired, hexp, hlt]
    have heq := Memory.get_expired now kind hl he
    refine ⟨heq, ?_, ?_⟩
    · rw [heq]
      dsimp only
      intro hmem
      rw [Memory.mem_keys_removeEntry hg.1] at hmem
      exact hmem.2 rfl
    · rw [heq]
      dsimp only
      intro hmem
      rw [Memory.mem_order_removeEntry hg.1.nodupOrder] at hmem
      exact hmem.2 rfl
  · intro v hok
    cases hl : lookup key (Memory.runOps (Memory.NewWithConfig cap) ops).items with
    | none =>
      rw [Memory.get_absent now kind hl] at hok
      cases hok
    | some it =>
      cases he : Memory.isExpired it now with
      | true =>
        rw [Memory.get_expired now kind hl he] at hok
        cases hok
      | false =>
        refine ⟨it, rfl, ?_, ?_⟩
        · by_cases hk : it.value.kind = kind
          · rw [Memory.get_live_ok now hl he hk] at hok
            simpa using hok
          · rw [Memory.get_live_mismatch now hl he hk] at hok
            cases hok
        · intro e hexp
          simp [Memory.isExpired, hexp] at he
          omega

/-- Witness for the amended C5 at a concrete input: key `"a"`, expiry 5,
read at time 9. -/
theorem C5_lazy_expiry_on_get_witness :
    Memory.Get
        (Memory.runOps (Memory.NewWithConfig 0)
          [(0, Memory.Op.set "a" (GobValue.intVal 1) 5 [])]) 9 "a" GKind.kInt
      = (Except.error CErr.notFound,
          Memory.removeEntry
            (Memory.runOps (Memory.NewWithConfig 0)
              [(0, Memory.Op.set "a" (GobValue.intVal 1) 5 [])]) "a") :=
  ((C5_lazy_expiry_on_get 0 [(0, Memory.Op.set "a" (GobValue.intVal 1) 5 [])] 9 "a"
      GKind.kInt).1 ⟨"a", GobValue.intVal 1, [], some 5⟩ 5 (by decide) (by decide)
    (by decide)).1

/-- Witness for C6 at a concrete input. -/
theorem C6_exists_does_not_refresh_recency_witness :
    Memory.Exists (Memory.mk [("a", ⟨"a", GobValue.strVal "x", [], none⟩)] ["a"] 0 1) 0 "a"
      = (true, Memory.mk [("a", ⟨"a", GobValue.strVal "x", [], none⟩)] ["a"] 0 1) :=
  C6_exists_does_not_refresh_recency.1
    (Memory.mk [("a", ⟨"a", GobValue.strVal "x", [], none⟩)] ["a"] 0 1) 0 "a"
    ⟨"a", GobValue.strVal "x", [], none⟩ (by decide) (by decide)

/-- C7: on any reachable store, `RemoveByTag t` removes exactly the entries
that are expired or whose tag set contains `t`, and `RemoveByTags` removes
exactly those expired or tagged with at least one of the given tags — no
other entry is removed and none of these survives; in particular after
setting `a`,`b`,`c` with tags `{t1}`,`{t1,t2}`,`{t2}` and `RemoveByTag t1`,
only `c` remains retrievable. -/
theorem C7_remove_by_tag_exact (cap : Int) (ops : List (Nat × Memory.Op)) (now : Nat)
    (tag : String) (tags : List String) :
    (∀ k : String,
        k ∈ (Memory.RemoveByTag (Memory.runOps (Memory.NewWithConfig cap) ops) now tag).keys
          ↔ ∃ it,
              lookup k (Memory.runOps (Memory.NewWithConfig cap) ops).items = some it
                ∧ Memory.isExpired it now = false
                ∧ it.tags.contains tag = false)
    ∧ (∀ k : String,
        k ∈ (Memory.RemoveByTags (Memory.runOps (Memory.NewWithConfig cap) ops) now tags).keys
          ↔ ∃ it,
              lookup k (Memory.runOps (Memory.NewWithConfig cap) ops).items = some it
                ∧ Memory.isExpired it now = false
                ∧ tags.any (fun t => it.tags.contains t) = false)
    ∧ ((Memory.RemoveByTag
          (Memory.Set (Memory.Set (Memory.Set (Memory.NewWithConfig 0)
              0 "a" (GobValue.strVal "va") 0 ["t1"])
            0 "b" (GobValue.strVal "vb") 0 ["t1", "t2"])
            0 "c" (GobValue.strVal "vc") 0 ["t2"]) 0 "t1").keys = ["c"]
        ∧ (Memory.Get (Memory.RemoveByTag
              (Memory.Set (Memory.Set (Memory.Set (Memory.NewWithConfig 0)
                  0 "a" (GobValue.strVal "va") 0 ["t1"])
                0 "b" (GobValue.strVal "vb") 0 ["t1", "t2"])
                0 "c" (GobValue.strVal "vc") 0 ["t2"]) 0 "t1")
            0 "c" GKind.kStr).1 = Except.ok (GobValue.strVal "vc")) := by
  have hg := Memory.good_runOps ops _ (Memory.good_NewWithConfig cap)
  exact ⟨Memory.mem_keys_removeByTag hg.1 now tag,
    Memory.mem_keys_removeByTags hg.1 now tags, by decide⟩

/-- C3: when a `Set` of a fresh key overflows a bounded store (capacity > 0,
store full), the entry removed is exactly the one at the tail of the recency
list (the least recently used) and no other; in particular, inserting
`N + 1` distinct keys into a fresh store of capacity `N` with no intervening
reads evicts exactly the first-inserted key. -/
theorem C3_lru_evicts_tail :
    (∀ (cap : Int) (ops : List (Nat × Memory.Op)) (now : Nat) (key : String)
        (v : GobValue) (ttl : Int) (tags : List String),
      0 < cap →
      ((Memory.runOps (Memory.NewWithConfig cap) ops).size : Int) = cap →
      lookup key (Memory.runOps (Memory.NewWithConfig cap) ops).items = none →
      ∃ tailKey,
        (Memory.runOps (Memory.NewWithConfig cap) ops).order.getLast? = some tailKey
        ∧ tailKey ≠ key
        ∧ (Memory.Set (Memory.runOps (Memory.NewWithConfig cap) ops) now key v ttl tags).order
            = key :: (Memory.runOps (Memory.NewWithConfig cap) ops).order.erase tailKey
        ∧ ∀ k : String,
            k ∈ (Memory.Set (Memory.runOps (Memory.NewWithConfig cap) ops)
                  now key v ttl tags).keys
              ↔ k = key
                ∨ (k ∈ (Memory.runOps (Memory.NewWithConfig cap) ops).keys ∧ k ≠ tailKey))
    ∧ (∀ (N : Nat) (k0 : String) (rest : List String) (now : Nat) (v : GobValue)
        (ttl : Int) (tags : List String),
      0 < N → rest.length = N → (k0 :: rest).Nodup →
      (Memory.runOps (Memory.NewWithConfig (N : Int))
          ((k0 :: rest).map (fun k => (now, Memory.Op.set k v ttl tags)))).order
          = rest.reverse
        ∧ (Memory.runOps (Memory.NewWithConfig (N : Int))
            ((k0 :: rest).map (fun k => (now, Memory.Op.set k v ttl tags)))).keys
          = rest.reverse
        ∧ k0 ∉ (Memory.runOps (Memory.NewWithConfig (N : Int))
            ((k0 :: rest).map (fun k => (now, Memory.Op.set k v ttl tags)))).keys
        ∧ ∀ k ∈ rest,
            k ∈ (Memory.runOps (Memory.NewWithConfig (N : Int))
              ((k0 :: rest).map (fun k => (now, Memory.Op.set k v ttl tags)))).keys) := by
  constructor
  · intro cap ops now key v ttl tags hcap hfull hl
    have hg := Memory.good_runOps ops _ (Memory.good_NewWithConfig cap)
    have hms : (Memory.runOps (Memory.NewWithConfig cap) ops).maxSize = cap :=
      Memory.maxSize_runOps ops (Memory.NewWithConfig cap)
    obtain ⟨tailKey, htk, hne, heq⟩ :=
      Memory.set_new_full_step hg now v ttl tags hl (by rw [hms]; exact hcap)
        (by rw [hms]; exact hfull)
    refine ⟨tailKey, htk, hne, ?_, ?_⟩
    · rw [heq]
    · intro k
      rw [heq]
      have hkeys :
          (Memory.mk
            ((key, (⟨key, v, Memory.uniqueTags tags, Memory.mkExpiry now ttl⟩ : Item))
              :: eraseKey tailKey (Memory.runOps (Memory.NewWithConfig cap) ops).items)
            (key :: (Memory.runOps (Memory.NewWithConfig cap) ops).order.erase tailKey)
            (Memory.runOps (Memory.NewWithConfig cap) ops).maxSize
            (Memory.runOps (Memory.NewWithConfig cap) ops).size).keys
            = key :: ((Memory.runOps (Memory.NewWithConfig cap) ops).keys.erase tailKey) := by
        show ((key, _) :: eraseKey tailKey (Memory.runOps (Memory.NewWithConfig cap) ops).items).map
            Prod.fst = _
        rw [List.map_cons, keys_eraseKey]
        rfl
      rw [hkeys, List.mem_cons, List.Nodup.mem_erase_iff hg.1.nodupKeys]
      exact or_congr Iff.rfl and_comm
  · intro N k0 rest now v ttl tags hN hlen hnd
    obtain ⟨horder, hkeys⟩ :=
      Memory.runOps_fill_then_overflow now v ttl tags hN hlen hnd
    rw [List.nodup_cons] at hnd
    refine ⟨horder, hkeys, ?_, ?_⟩
    · rw [hkeys, List.mem_reverse]
      exact hnd.1
    · intro k hk
      rw [hkeys, List.mem_reverse]
      exact hk

/-- Witness for C3 at concrete inputs: a full store of capacity 1, and the
`N + 1 = 2` insert sequence at capacity `N = 1`. -/
theorem C3_lru_evicts_tail_witness :
    (0 < (1 : Int)
      ∧ ((Memory.runOps (Memory.NewWithConfig 1)
            [(0, Memory.Op.set "a" (GobValue.intVal 0) 0 [])]).size : Int) = 1
      ∧ lookup "b" (Memory.runOps (Memory.NewWithConfig 1)
            [(0, Memory.Op.set "a" (GobValue.intVal 0) 0 [])]).items = none
      ∧ ∃ tailKey,
          (Memory.runOps (Memory.NewWithConfig 1)
              [(0, Memory.Op.set "a" (GobValue.intVal 0) 0 [])]).order.getLast? = some tailKey
          ∧ tailKey ≠ "b"
          ∧ (Memory.Set (Memory.runOps (Memory.NewWithConfig 1)
                [(0, Memory.Op.set "a" (GobValue.intVal 0) 0 [])])
              0 "b" (GobValue.intVal 0) 0 []).order
              = "b" :: (Memory.runOps (Memory.NewWithConfig 1)
                  [(0, Memory.Op.set "a" (GobValue.intVal 0) 0 [])]).order.erase tailKey
          ∧ ∀ k : String,
              k ∈ (Memory.Set (Memory.runOps (Memory.NewWithConfig 1)
                    [(0, Memory.Op.set "a" (GobValue.intVal 0) 0 [])])
                  0 "b" (GobValue.intVal 0) 0 []).keys
                ↔ k = "b"
                  ∨ (k ∈ (Memory.runOps (Memory.NewWithConfig 1)
                      [(0, Memory.Op.set "a" (GobValue.intVal 0) 0 [])]).keys ∧ k ≠ tailKey))
    ∧ ((Memory.runOps (Memory.NewWithConfig ((1 : Nat) : Int))
          (["x", "y"].map (fun k => (0, Memory.Op.set k (GobValue.intVal 0) 0 [])))).order
          = ["y"].reverse
        ∧ (Memory.runOps (Memory.NewWithConfig ((1 : Nat) : Int))
            (["x", "y"].map (fun k => (0, Memory.Op.set k (GobValue.intVal 0) 0 [])))).keys
          = ["y"].reverse
        ∧ "x" ∉ (Memory.runOps (Memory.NewWithConfig ((1 : Nat) : Int))
            (["x", "y"].map (fun k => (0, Memory.Op.set k (GobValue.intVal 0) 0 [])))).keys
        ∧ ∀ k ∈ ["y"],
            k ∈ (Memory.runOps (Memory.NewWithConfig ((1 : Nat) : Int))
              (["x", "y"].map (fun k => (0, Memory.Op.set k (GobValue.intVal 0) 0 [])))).keys) :=
  ⟨⟨by decide, by decide, by decide,
      C3_lru_evicts_tail.1 1 [(0, Memory.Op.set "a" (GobValue.intVal 0) 0 [])]
        0 "b" (GobValue.intVal 0) 0 [] (by decide) (by decide) (by decide)⟩,
    C3_lru_evicts_tail.2 1 "x" ["y"] 0 (GobValue.intVal 0) 0 []
      (by decide) (by decide) (by decide)⟩

end Cachemar
